import Mathlib

/-!
Verification of the display/transcoding core of the `ehx` terminal hex viewer.

The development shallowly embeds three components of the source:
  * `src/encoding/mod.rs`  — the decode-for-display engine,
  * `src/clipboard/mod.rs` — the hex transcoder and OSC 52 escape framer,
  * `src/ui/hex_view.rs`   — the dual-pane renderer's row logic.

Bytes are modelled as `Fin 256`, Rust `String`s as lists of Unicode scalar
values (`List Nat`) on the decoding side and as `List Char` on the clipboard
side.  Behaviour supplied by external crates (`unicode_segmentation`,
`unicode_width`, `encoding_rs`) is abstracted into explicit function
parameters, so theorems quantify over every possible behaviour of those
crates; behaviour of the Rust core library (`std::str::from_utf8`,
`char::from_u32`, `u16::from_le_bytes`, `char::is_control`,
`u8::is_ascii_*`) is modelled concretely.
-/

namespace Ehx

/-- A raw byte, as stored in the viewer's data buffer. -/
abbrev Byte := Fin 256

/-- Mirror of `DecodedChar` in `src/encoding/mod.rs`: the display string is a
list of Unicode scalar values. -/
structure DecodedChar where
  display : List Nat
  byte_len : Nat
  width : Nat
deriving DecidableEq, Repr

/-- Mirror of `CharEncoding` in `src/encoding/mod.rs`. -/
inductive CharEncoding
  | utf8
  | utf16Le
  | utf16Be
  | shiftJis
  | eucJp
  | iso2022Jp
  | ascii
  | latin1
deriving DecidableEq, Repr

/-- The `encoding_rs` codec objects referenced by `CharEncoding::to_encoding`. -/
inductive EncodingRs
  | UTF_8
  | UTF_16LE
  | UTF_16BE
  | SHIFT_JIS
  | EUC_JP
  | ISO_2022_JP
  | WINDOWS_1252
deriving DecidableEq, Repr

/-- Mirror of `CharEncoding::to_encoding`. -/
def CharEncoding.to_encoding : CharEncoding → EncodingRs
  | .utf8 => .UTF_8
  | .utf16Le => .UTF_16LE
  | .utf16Be => .UTF_16BE
  | .shiftJis => .SHIFT_JIS
  | .eucJp => .EUC_JP
  | .iso2022Jp => .ISO_2022_JP
  | .ascii => .WINDOWS_1252
  | .latin1 => .WINDOWS_1252

/-- Mirror of `CharEncoding::next`. -/
def CharEncoding.next : CharEncoding → CharEncoding
  | .utf8 => .utf16Le
  | .utf16Le => .utf16Be
  | .utf16Be => .shiftJis
  | .shiftJis => .eucJp
  | .eucJp => .iso2022Jp
  | .iso2022Jp => .ascii
  | .ascii => .latin1
  | .latin1 => .utf8

/-- Abstracted behaviour of the `unicode_segmentation` and `unicode_width`
crates: `firstGrapheme s` is `s.graphemes(true).first()` and `gwidth s` is
`UnicodeWidthStr::width(s)`. -/
structure Uni where
  firstGrapheme : List Nat → Option (List Nat)
  gwidth : List Nat → Nat

/-- Abstracted behaviour of an `encoding_rs` codec: `decode bs` returns the
decoded string together with the `had_errors` flag, `encode s` returns the
encoded bytes (with replacement on unmappable input, as `encoding_rs` does). -/
structure Codec where
  decode : List Byte → List Nat × Bool
  encode : List Nat → List Byte

/-- Model of Rust `char::from_u32`: succeeds exactly on Unicode scalar
values. -/
def charFromU32 (n : Nat) : Option Nat :=
  if 0xD800 ≤ n ∧ n ≤ 0xDFFF then none
  else if 0x10FFFF < n then none
  else some n

/-- Model of Rust `char::is_control` (the Cc category). -/
def isControlCp (c : Nat) : Bool :=
  decide (c < 0x20 ∨ (0x7F ≤ c ∧ c ≤ 0x9F))

/-- Mirror of `is_displayable` in `src/encoding/mod.rs`. -/
def is_displayable (s : List Nat) : Bool :=
  match s with
  | [] => false
  | c :: _ => !(isControlCp c && decide (c ≠ 0x20)) && decide (c ≠ 0xFFFD)

/-- The one-byte `.` placeholder unit used for undecodable bytes. -/
def invalidUnit : DecodedChar := ⟨[0x2E], 1, 1⟩

/-- Mirror of `utf8_char_len` in `src/encoding/mod.rs`. -/
def utf8_char_len (first_byte : Byte) : Nat :=
  if first_byte.val ≤ 0x7F then 1
  else if 0xC0 ≤ first_byte.val ∧ first_byte.val ≤ 0xDF then 2
  else if 0xE0 ≤ first_byte.val ∧ first_byte.val ≤ 0xEF then 3
  else if 0xF0 ≤ first_byte.val ∧ first_byte.val ≤ 0xF7 then 4
  else 0

/-- UTF-8 continuation byte test (`0x80..=0xBF`). -/
def isCont (b : Byte) : Bool := decide (0x80 ≤ b.val ∧ b.val ≤ 0xBF)

/-- Model of Rust `std::str::from_utf8`: strict UTF-8 validation returning the
decoded scalar values (rejecting overlong forms, surrogates and values above
`U+10FFFF`, as the Unicode well-formedness table prescribes). -/
def utf8Decode : List Byte → Option (List Nat)
  | [] => some []
  | b0 :: rest =>
    if b0.val ≤ 0x7F then
      (utf8Decode rest).map (b0.val :: ·)
    else if 0xC2 ≤ b0.val ∧ b0.val ≤ 0xDF then
      match rest with
      | b1 :: rest1 =>
        if isCont b1 then
          (utf8Decode rest1).map (fun cps => ((b0.val % 0x20) * 0x40 + b1.val % 0x40) :: cps)
        else none
      | [] => none
    else if 0xE0 ≤ b0.val ∧ b0.val ≤ 0xEF then
      match rest with
      | b1 :: b2 :: rest2 =>
        if isCont b1 && isCont b2
            && !(decide (b0.val = 0xE0) && decide (b1.val < 0xA0))
            && !(decide (b0.val = 0xED) && decide (0x9F < b1.val)) then
          (utf8Decode rest2).map
            (fun cps => ((b0.val % 0x10) * 0x1000 + (b1.val % 0x40) * 0x40 + b2.val % 0x40) :: cps)
        else none
      | _ => none
    else if 0xF0 ≤ b0.val ∧ b0.val ≤ 0xF4 then
      match rest with
      | b1 :: b2 :: b3 :: rest3 =>
        if isCont b1 && isCont b2 && isCont b3
            && !(decide (b0.val = 0xF0) && decide (b1.val < 0x90))
            && !(decide (b0.val = 0xF4) && decide (0x8F < b1.val)) then
          (utf8Decode rest3).map
            (fun cps => ((b0.val % 8) * 0x40000 + (b1.val % 0x40) * 0x1000
              + (b2.val % 0x40) * 0x40 + b3.val % 0x40) :: cps)
        else none
      | _ => none
    else none

/-- Loop body of `decode_utf8_for_display`.  The source writes one unit into
`result[i]` and advances `i` by the unit's byte length, leaving the skipped
slots empty; here the pending empty slots are tracked by the `skip` counter,
so that `utf8GoAux U 0 bytes` is the tail of the decode map from the current
offset. -/
def utf8GoAux (U : Uni) : Nat → List Byte → List (Option DecodedChar)
  | _ + 1, [] => []
  | skip + 1, _ :: rest => none :: utf8GoAux U skip rest
  | 0, [] => []
  | 0, b0 :: rest =>
    let char_len := utf8_char_len b0
    if char_len = 0 ∨ rest.length + 1 < char_len then
      some invalidUnit :: utf8GoAux U 0 rest
    else
      match utf8Decode ((b0 :: rest).take char_len) with
      | none => some invalidUnit :: utf8GoAux U 0 rest
      | some s =>
        match U.firstGrapheme s with
        | some g =>
          some ⟨if is_displayable g then g else [0x2E], char_len, max (U.gwidth g) 1⟩
            :: utf8GoAux U (char_len - 1) rest
        | none => none :: utf8GoAux U (char_len - 1) rest

/-- Mirror of `decode_utf8_for_display` in `src/encoding/mod.rs`. -/
def decode_utf8_for_display (U : Uni) (bytes : List Byte) : List (Option DecodedChar) :=
  utf8GoAux U 0 bytes

/-- Model of `u16::from_le_bytes` / `u16::from_be_bytes` at the chosen
endianness. -/
def readU16 (isLe : Bool) (a b : Byte) : Nat :=
  if isLe then a.val + 256 * b.val else 256 * a.val + b.val

/-- The standalone 2-byte unit built by `decode_utf16_for_display` for a
non-pair code unit. -/
def utf16Unit (U : Uni) (code_unit : Nat) : DecodedChar :=
  match charFromU32 code_unit with
  | some c =>
    if is_displayable [c] then ⟨[c], 2, max (U.gwidth [c]) 1⟩
    else ⟨[0x2E], 2, 1⟩
  | none => ⟨[0x2E], 2, 1⟩

/-- Loop body of `decode_utf16_for_display` in `src/encoding/mod.rs`, with
the `skip`-counter representation of the slots crossed by a multi-byte unit:
the surrogate-pair branch requires four available bytes
(`i + 3 < bytes.len()`), otherwise the unit is a standalone 2-byte unit, and
a final unpaired byte becomes a 1-byte placeholder.  The `if let` on
`char::from_u32` is rendered with `Option.elim` (`none` branch first). -/
def utf16GoAux (U : Uni) (isLe : Bool) : Nat → List Byte → List (Option DecodedChar)
  | _ + 1, [] => []
  | skip + 1, _ :: rest => none :: utf16GoAux U isLe skip rest
  | 0, [] => []
  | 0, b0 :: rest =>
    match rest with
    | [] => [some invalidUnit]
    | b1 :: rest1 =>
      let code_unit := readU16 isLe b0 b1
      match rest1 with
      | b2 :: b3 :: _ =>
        if 0xD800 ≤ code_unit ∧ code_unit ≤ 0xDBFF then
          let low := readU16 isLe b2 b3
          if 0xDC00 ≤ low ∧ low ≤ 0xDFFF then
            (charFromU32 (0x10000 + (((code_unit - 0xD800) <<< 10) ||| (low - 0xDC00)))).elim
              (some (utf16Unit U code_unit) :: none :: utf16GoAux U isLe 0 rest1)
              (fun c => some ⟨[c], 4, max (U.gwidth [c]) 1⟩ :: none :: utf16GoAux U isLe 2 rest1)
          else some (utf16Unit U code_unit) :: none :: utf16GoAux U isLe 0 rest1
        else some (utf16Unit U code_unit) :: none :: utf16GoAux U isLe 0 rest1
      | _ => some (utf16Unit U code_unit) :: none :: utf16GoAux U isLe 0 rest1

/-- The UTF-16 decode map of a whole byte suffix. -/
def utf16Go (U : Uni) (isLe : Bool) (bytes : List Byte) : List (Option DecodedChar) :=
  utf16GoAux U isLe 0 bytes

/-- Mirror of `decode_utf16_for_display` in `src/encoding/mod.rs`. -/
def decode_utf16_for_display (U : Uni) (encoding : CharEncoding)
    (bytes : List Byte) : List (Option DecodedChar) :=
  utf16Go U (encoding = CharEncoding.utf16Le) bytes

/-- One trial-decode iteration of `decode_with_encoding_rs`: decode `len`
bytes, require no substitution and a non-empty result, take the first
grapheme and require that re-encoding it reproduces exactly `len` bytes. -/
def tryDecodeLen (U : Uni) (C : Codec) (s : List Byte) (len : Nat) : Option DecodedChar :=
  let dec := C.decode (s.take len)
  if dec.2 = false ∧ dec.1 ≠ [] then
    match U.firstGrapheme dec.1 with
    | some g =>
      if (C.encode g).length = len then
        some ⟨if is_displayable g then g else [0x2E], len, max (U.gwidth g) 1⟩
      else none
    | none => none
  else none

/-- First successful candidate length, trying the given lengths in order. -/
def firstSuccess (U : Uni) (C : Codec) (s : List Byte) :
    List Nat → Option (Nat × DecodedChar)
  | [] => none
  | len :: lens =>
    match tryDecodeLen U C s len with
    | some d => some (len, d)
    | none => firstSuccess U C s lens

/-- The candidate lengths `1..=m` tried by `decode_with_encoding_rs`. -/
def lensUpTo (m : Nat) : List Nat := (List.range m).map (· + 1)

/-- Loop body of `decode_with_encoding_rs` in `src/encoding/mod.rs`, with the
same `skip`-counter representation of the slots crossed by a multi-byte
unit. -/
def encRsAux (U : Uni) (C : Codec) : Nat → List Byte → List (Option DecodedChar)
  | _ + 1, [] => []
  | skip + 1, _ :: rest => none :: encRsAux U C skip rest
  | 0, [] => []
  | 0, b :: rest =>
    match firstSuccess U C (b :: rest) (lensUpTo (min 4 (rest.length + 1))) with
    | some (len, d) => some d :: encRsAux U C (len - 1) rest
    | none => some invalidUnit :: encRsAux U C 0 rest

/-- Mirror of `decode_with_encoding_rs` in `src/encoding/mod.rs`; the codec
parameter `C` stands for the `encoding_rs` codec selected by
`encoding.to_encoding()`. -/
def decode_with_encoding_rs (U : Uni) (C : Codec) (bytes : List Byte) :
    List (Option DecodedChar) :=
  encRsAux U C 0 bytes

/-- The inline single-byte arm of `decode_for_display` (ASCII / Latin-1 /
ISO-2022-JP fallback): display for one byte. -/
def singleByteDisplay (b : Byte) : List Nat :=
  if (0x21 ≤ b.val ∧ b.val ≤ 0x7E) ∨ b.val = 0x20 then [b.val]
  else if b.val < 0x20 ∨ b.val = 0x7F then [0x2E]
  else
    match charFromU32 b.val with
    | some c => [c]
    | none => [0x2E]

/-- Mirror of `decode_for_display` in `src/encoding/mod.rs`. -/
def decode_for_display (U : Uni) (C : Codec) (bytes : List Byte)
    (encoding : CharEncoding) : List (Option DecodedChar) :=
  if bytes = [] then []
  else
    match encoding with
    | .utf8 => decode_utf8_for_display U bytes
    | .shiftJis => decode_with_encoding_rs U C bytes
    | .eucJp => decode_with_encoding_rs U C bytes
    | .utf16Le => decode_utf16_for_display U .utf16Le bytes
    | .utf16Be => decode_utf16_for_display U .utf16Be bytes
    | _ => bytes.map (fun b => some ⟨singleByteDisplay b, 1, 1⟩)

/-- Executable partition check for a decode map: walked left to right, the
map must start with a unit, each unit of byte length `L` must be followed by
exactly `L - 1` empty slots before the next unit (or the end of the map), and
a unit may not overrun the end.  `isPartitionAux k` expects `k` pending empty
slots first. -/
def isPartitionAux : Nat → List (Option DecodedChar) → Bool
  | 0, [] => true
  | _ + 1, [] => false
  | skip + 1, o :: rest => o.isNone && isPartitionAux skip rest
  | 0, none :: _ => false
  | 0, some d :: rest => decide (1 ≤ d.byte_len) && isPartitionAux (d.byte_len - 1) rest

/-- A decode map's non-empty slots, in ascending offset order, partition the
whole index range into contiguous non-overlapping spans. -/
def isPartition (m : List (Option DecodedChar)) : Bool := isPartitionAux 0 m

/-! ## Clipboard transcoder (`src/clipboard/mod.rs`) -/

/-- Mirror of `HexFormat` in `src/clipboard/mod.rs`. -/
inductive HexFormat
  | spaced
  | continuous
  | cArray
deriving DecidableEq, Repr

/-- Mirror of `ClipboardError`; the payloads of the platform and I/O variants
are irrelevant here and omitted. -/
inductive ClipboardError
  | arboard
  | invalidHex (msg : List Char)
  | io
deriving DecidableEq, Repr

/-- One uppercase hexadecimal digit, as produced by Rust's `{:02X}`. -/
def hexDigitChar (n : Nat) : Char :=
  if n < 10 then Char.ofNat (48 + n) else Char.ofNat (55 + n)

/-- The two uppercase digits `{:02X}` prints for one byte. -/
def hexPairChars (b : Byte) : List Char :=
  [hexDigitChar (b.val / 16), hexDigitChar (b.val % 16)]

/-- Model of `Vec::join(sep)` on strings. -/
def joinSep (sep : List Char) : List (List Char) → List Char
  | [] => []
  | [x] => x
  | x :: xs => x ++ sep ++ joinSep sep xs

/-- Mirror of `bytes_to_hex` in `src/clipboard/mod.rs`. -/
def bytes_to_hex (bytes : List Byte) (format : HexFormat) : List Char :=
  match format with
  | .spaced => joinSep [' '] (bytes.map hexPairChars)
  | .continuous => (bytes.map hexPairChars).flatten
  | .cArray =>
    ['{', ' ']
      ++ joinSep [',', ' '] (bytes.map (fun b => ['0', 'x'] ++ hexPairChars b))
      ++ [' ', '}']

/-- Model of `str::replace`, scanning left to right and replacing
non-overlapping occurrences; `skip` counts pattern characters still to be
consumed after a match.  Behaviour for the empty pattern is irrelevant (never
used) and is the identity. -/
def replaceAllAux (pat rep : List Char) : Nat → List Char → List Char
  | _ + 1, [] => []
  | skip + 1, _ :: rest => replaceAllAux pat rep skip rest
  | 0, [] => []
  | 0, c :: rest =>
    if pat.isPrefixOf (c :: rest) ∧ 1 ≤ pat.length then
      rep ++ replaceAllAux pat rep (pat.length - 1) rest
    else c :: replaceAllAux pat rep 0 rest

/-- Model of `str::replace pat rep`. -/
def replaceAll (pat rep s : List Char) : List Char := replaceAllAux pat rep 0 s

/-- Model of `char::is_ascii_hexdigit`. -/
def isAsciiHexDigit (c : Char) : Bool :=
  decide ((48 ≤ c.toNat ∧ c.toNat ≤ 57) ∨ (65 ≤ c.toNat ∧ c.toNat ≤ 70)
    ∨ (97 ≤ c.toNat ∧ c.toNat ≤ 102))

/-- The cleaning pipeline of `hex_to_bytes`: strip spaces, commas, `0x`/`0X`,
braces, then keep only ASCII hex digits. -/
def cleanHex (s : List Char) : List Char :=
  (replaceAll ['}'] []
    (replaceAll ['{'] []
      (replaceAll ['0', 'X'] []
        (replaceAll ['0', 'x'] []
          (replaceAll [','] []
            (replaceAll [' '] [] s)))))).filter isAsciiHexDigit

/-- The value of one ASCII hex digit, as accepted by
`u8::from_str_radix(_, 16)`. -/
def hexVal (c : Char) : Option (Fin 16) :=
  if h : 48 ≤ c.toNat ∧ c.toNat ≤ 57 then some ⟨c.toNat - 48, by omega⟩
  else if h : 65 ≤ c.toNat ∧ c.toNat ≤ 70 then some ⟨c.toNat - 55, by omega⟩
  else if h : 97 ≤ c.toNat ∧ c.toNat ≤ 102 then some ⟨c.toNat - 87, by omega⟩
  else none

/-- The error message of the odd-length rejection. -/
def evenLengthMsg : List Char := "Hex string must have even length".toList

/-- Decoding of consecutive digit pairs, failing with the offending pair if a
pair is not valid hexadecimal (the stray single-character case cannot be
reached after the even-length check). -/
def parsePairs : List Char → Except ClipboardError (List Byte)
  | [] => .ok []
  | [c] => .error (.invalidHex [c])
  | c1 :: c2 :: rest =>
    match hexVal c1, hexVal c2 with
    | some h, some l =>
      match parsePairs rest with
      | .ok bs => .ok (⟨h.val * 16 + l.val, by omega⟩ :: bs)
      | .error e => .error e
    | _, _ => .error (.invalidHex [c1, c2])

/-- Mirror of `hex_to_bytes` in `src/clipboard/mod.rs`. -/
def hex_to_bytes (hex : List Char) : Except ClipboardError (List Byte) :=
  let cleaned := cleanHex hex
  if cleaned.length % 2 ≠ 0 then .error (.invalidHex evenLengthMsg)
  else parsePairs cleaned

/-! ## OSC 52 escape framing (`src/clipboard/mod.rs`) -/

/-- One character of the standard base64 alphabet. -/
def b64Char (n : Nat) : Byte :=
  if h : n < 26 then ⟨65 + n, by omega⟩
  else if h : n < 52 then ⟨71 + n, by omega⟩
  else if h : n < 62 then ⟨n - 4, by omega⟩
  else if n = 62 then ⟨43, by decide⟩
  else ⟨47, by decide⟩

/-- Standard base64 with `=` padding (the `base64` crate's `STANDARD`
engine), emitted as ASCII bytes. -/
def base64Encode : List Byte → List Byte
  | [] => []
  | [a] =>
    [b64Char (a.val / 4), b64Char ((a.val % 4) * 16), ⟨61, by decide⟩, ⟨61, by decide⟩]
  | [a, b] =>
    [b64Char (a.val / 4), b64Char ((a.val % 4) * 16 + b.val / 16),
      b64Char ((b.val % 16) * 4), ⟨61, by decide⟩]
  | a :: b :: c :: rest =>
    b64Char (a.val / 4) :: b64Char ((a.val % 4) * 16 + b.val / 16)
      :: b64Char ((b.val % 16) * 4 + c.val / 64) :: b64Char (c.val % 64)
      :: base64Encode rest

/-- The escape byte. -/
def escByte : Byte := ⟨0x1B, by decide⟩

/-- Mirror of `build_osc52_sequence`: `ESC ] 52;c;` ++ base64 payload ++
`BEL`. -/
def build_osc52_sequence (data : List Byte) : List Byte :=
  [escByte, ⟨0x5D, by decide⟩, ⟨0x35, by decide⟩, ⟨0x32, by decide⟩,
      ⟨0x3B, by decide⟩, ⟨0x63, by decide⟩, ⟨0x3B, by decide⟩]
    ++ base64Encode data ++ [⟨0x07, by decide⟩]

/-- The doubling loop of `wrap_for_tmux`: every `ESC` byte is emitted
twice. -/
def doubleEsc : List Byte → List Byte
  | [] => []
  | b :: rest =>
    if b = escByte then escByte :: escByte :: doubleEsc rest
    else b :: doubleEsc rest

/-- Mirror of `wrap_for_tmux`: `ESC P tmux;` ++ escape-doubled payload ++
`ESC \`. -/
def wrap_for_tmux (osc52 : List Byte) : List Byte :=
  [escByte, ⟨0x50, by decide⟩, ⟨0x74, by decide⟩, ⟨0x6D, by decide⟩,
      ⟨0x75, by decide⟩, ⟨0x78, by decide⟩, ⟨0x3B, by decide⟩]
    ++ doubleEsc osc52 ++ [escByte, ⟨0x5C, by decide⟩]

/-- The unwrapping operation described by the specification: drop the 7-byte
`ESC P tmux;` prefix and the trailing `ESC \`. -/
def stripTmuxEnvelope (seq : List Byte) : List Byte :=
  (seq.drop 7).take ((seq.drop 7).length - 2)

/-- Left-to-right scan collapsing doubled `ESC` bytes; the flag records
whether an `ESC` was read that may pair with the next byte. -/
def collapseGo : Bool → List Byte → List Byte
  | false, [] => []
  | true, [] => [escByte]
  | false, b :: rest =>
    if b = escByte then collapseGo true rest
    else b :: collapseGo false rest
  | true, b :: rest =>
    if b = escByte then escByte :: collapseGo false rest
    else escByte :: b :: collapseGo false rest

/-- The collapsing operation described by the specification: every doubled
`ESC` byte becomes a single `ESC`, scanning left to right. -/
def collapseEsc (seq : List Byte) : List Byte := collapseGo false seq

/-! ## Dual-pane renderer (`src/ui/hex_view.rs`) -/

/-- The `ratatui` colors referenced by `src/ui/mod.rs`. -/
inductive TermColor
  | cyan
  | white
  | darkGray
  | red
  | green
  | black
  | yellow
  | blue
  | magenta
deriving DecidableEq, Repr

/-- Mirror of the `Colors` constants in `src/ui/mod.rs`. -/
def Colors.ADDR : TermColor := .cyan

def Colors.HEX_NORMAL : TermColor := .white

def Colors.HEX_ZERO : TermColor := .darkGray

def Colors.HEX_HIGH : TermColor := .red

def Colors.HEX_PRINTABLE : TermColor := .green

def Colors.ASCII_NORMAL : TermColor := .white

def Colors.ASCII_CONTROL : TermColor := .darkGray

def Colors.CURSOR : TermColor := .black

def Colors.CURSOR_BG : TermColor := .yellow

def Colors.SELECTION_BG : TermColor := .blue

def Colors.HEADER : TermColor := .yellow

/-- Model of a `ratatui` style as used by `render_row`: optional foreground
and background. -/
structure Style where
  fg : Option TermColor := none
  bg : Option TermColor := none
deriving DecidableEq, Repr

/-- `Style::default()`. -/
def Style.empty : Style := {}

/-- `style.fg(c)`. -/
def Style.withFg (s : Style) (c : TermColor) : Style := { s with fg := some c }

/-- `style.bg(c)`. -/
def Style.withBg (s : Style) (c : TermColor) : Style := { s with bg := some c }

/-- Mirror of `ViewMode` in `src/ui/hex_view.rs`. -/
inductive ViewMode
  | hex
  | ascii
deriving DecidableEq, Repr

/-- Mirror of the `HexView` widget state. -/
structure HexView where
  data : List Byte
  offset : Nat
  bytes_per_row : Nat
  cursor : Nat
  selection : Option (Nat × Nat)
  mode : ViewMode
  encoding : CharEncoding
  addr_radix : Nat

/-- One `buf.set_string` call: position, text (as character codes) and
style. -/
structure CellWrite where
  x : Nat
  y : Nat
  text : List Nat
  style : Style
deriving DecidableEq, Repr

/-- The set-string calls one invocation of `render_row` performs: the address
field, one write per hex slot, and an optional write per text slot (slots past
the data emit nothing in the text pane). -/
structure RenderedRow where
  addr : CellWrite
  hexCells : List CellWrite
  asciiCells : List (Option CellWrite)
deriving DecidableEq, Repr

/-- Little-endian base-`2^…` digit expansions used by `format_addr`; the
first argument is fuel (the value itself suffices). -/
def digitsRev (base : Nat) : Nat → Nat → List Nat
  | _, 0 => []
  | 0, _ => []
  | fuel + 1, n => n % base :: digitsRev base fuel (n / base)

/-- One uppercase hexadecimal digit as a character code. -/
def hexUpperCode (n : Nat) : Nat := if n < 10 then 48 + n else 55 + n

/-- Mirror of `format_addr`: `{:08X}` for radix 16, `{:010}` otherwise, as a
list of character codes. -/
def format_addr (hv : HexView) (addr : Nat) : List Nat :=
  if hv.addr_radix = 16 then
    let ds := ((digitsRev 16 addr addr).reverse).map hexUpperCode
    List.replicate (8 - ds.length) 48 ++ ds
  else
    let ds := ((digitsRev 10 addr addr).reverse).map (fun d => 48 + d)
    List.replicate (10 - ds.length) 48 ++ ds

/-- Mirror of `byte_color` in `src/ui/hex_view.rs`. -/
def byte_color (b : Byte) : TermColor :=
  if b.val = 0x00 then Colors.HEX_ZERO
  else if b.val = 0xFF then Colors.HEX_HIGH
  else if 0x20 ≤ b.val ∧ b.val ≤ 0x7E then Colors.HEX_PRINTABLE
  else Colors.HEX_NORMAL

/-- Mirror of `byte_to_char` in `src/encoding/mod.rs`, as a character
code. -/
def byte_to_char (b : Byte) : Nat :=
  if (0x21 ≤ b.val ∧ b.val ≤ 0x7E) ∨ b.val = 0x20 then b.val else 0x2E

/-- The two uppercase digits `{:02X}` prints for one byte, as character
codes. -/
def hexPairText (b : Byte) : List Nat :=
  [hexUpperCode (b.val / 16), hexUpperCode (b.val % 16)]

/-- The end of the data within a row: `(row_start + bytes_per_row).min(data.len())`. -/
def rowEndOf (hv : HexView) (row_start : Nat) : Nat :=
  min (row_start + hv.bytes_per_row) hv.data.length

/-- The hex-pane write for slot `j` of a row, mirroring the hex loop of
`render_row`: a styled digit pair for a real byte, a `__` cursor placeholder
at the end-of-file sentinel in hex mode, blanks otherwise. -/
def hex_cell (hv : HexView) (row_start x1 y j : Nat) : CellWrite :=
  let i := row_start + j
  let x := x1 + 3 * j
  if h : i < rowEndOf hv row_start then
    let b := hv.data.get ⟨i, lt_of_lt_of_le h (Nat.min_le_right _ _)⟩
    let st0 := Style.empty.withFg (byte_color b)
    let st :=
      if i = hv.cursor ∧ hv.mode = ViewMode.hex then
        (st0.withBg Colors.CURSOR_BG).withFg Colors.CURSOR
      else
        match hv.selection with
        | some (s, e) => if s ≤ i ∧ i ≤ e then st0.withBg Colors.SELECTION_BG else st0
        | none => st0
    ⟨x, y, hexPairText b, st⟩
  else if i = hv.data.length ∧ i = hv.cursor ∧ hv.mode = ViewMode.hex then
    ⟨x, y, [0x5F, 0x5F], (Style.empty.withBg Colors.CURSOR_BG).withFg Colors.CURSOR⟩
  else ⟨x, y, [0x20, 0x20], Style.empty⟩

/-- The text-pane write for slot `j` of a row, mirroring the ASCII loop of
`render_row`; `none` when the loop writes nothing for this slot. -/
def ascii_cell (hv : HexView) (row_start xA y j : Nat) : Option CellWrite :=
  let i := row_start + j
  let x := xA + j
  if h : i < rowEndOf hv row_start then
    let b := hv.data.get ⟨i, lt_of_lt_of_le h (Nat.min_le_right _ _)⟩
    let st0 :=
      if (0x21 ≤ b.val ∧ b.val ≤ 0x7E) ∨ b.val = 0x20 then
        Style.empty.withFg Colors.ASCII_NORMAL
      else Style.empty.withFg Colors.ASCII_CONTROL
    let st :=
      if i = hv.cursor ∧ hv.mode = ViewMode.ascii then
        (st0.withBg Colors.CURSOR_BG).withFg Colors.CURSOR
      else
        match hv.selection with
        | some (s, e) => if s ≤ i ∧ i ≤ e then st0.withBg Colors.SELECTION_BG else st0
        | none => st0
    some ⟨x, y, [byte_to_char b], st⟩
  else if i = hv.data.length ∧ i = hv.cursor ∧ hv.mode = ViewMode.ascii then
    some ⟨x, y, [0x5F], (Style.empty.withBg Colors.CURSOR_BG).withFg Colors.CURSOR⟩
  else none

/-- The first byte offset of row `row_offset`. -/
def rowStart (hv : HexView) (row_offset : Nat) : Nat :=
  hv.offset + row_offset * hv.bytes_per_row

/-- Mirror of `render_row` in `src/ui/hex_view.rs`: `none` when the row is
skipped, otherwise the set-string calls it performs. -/
def render_row (hv : HexView) (row_offset areaX areaY : Nat) : Option RenderedRow :=
  let row_start := rowStart hv row_offset
  let cursor_at_eof := hv.cursor = hv.data.length
  if hv.data.length < row_start then none
  else if hv.data.length ≤ row_start ∧ ¬cursor_at_eof then none
  else
    let addr_str := format_addr hv row_start
    let x1 := areaX + addr_str.length + 2
    let xA := x1 + 3 * hv.bytes_per_row + 1
    some
      { addr := ⟨areaX, areaY, addr_str, Style.empty.withFg Colors.ADDR⟩
        hexCells := (List.range hv.bytes_per_row).map (hex_cell hv row_start x1 areaY)
        asciiCells := (List.range hv.bytes_per_row).map (ascii_cell hv row_start xA areaY) }

/-! ## Concrete instantiations of the abstract crate behaviour, used by
witnesses -/

/-- A concrete segmentation/width oracle: the first grapheme of a non-empty
string is the whole string, every grapheme has width 1.  (Only its totality on
non-empty strings matters for the theorems.) -/
def uniTrivial : Uni := ⟨fun s => if s = [] then none else some s, fun _ => 1⟩

/-- A concrete codec that always reports a decoding error. -/
def codecTrivial : Codec := ⟨fun _ => ([], true), fun _ => []⟩

/-- The oracle used by the theorems' hypotheses: `graphemes(true).first()` is
some on every non-empty string. -/
theorem uniTrivial_firstGrapheme_total :
    ∀ s : List Nat, s ≠ [] → (uniTrivial.firstGrapheme s).isSome := by
  intro s hs
  cases s with
  | nil => exact absurd rfl hs
  | cons a t => simp [uniTrivial]

/-! ## Theorems -/

lemma utf8GoAux_units (U : Uni) :
    ∀ (s : List Byte) (k : Nat) (d : DecodedChar),
      some d ∈ utf8GoAux U k s → 1 ≤ d.byte_len ∧ 1 ≤ d.width := by
  intro s
  induction s with
  | nil =>
    intro k d hd
    match k with
    | 0 => simp [utf8GoAux] at hd
    | _ + 1 => simp [utf8GoAux] at hd
  | cons b0 rest ih =>
    intro k d hd
    match k with
    | skip + 1 =>
      simp only [utf8GoAux, List.mem_cons] at hd
      rcases hd with h | h
      · exact absurd h.symm (by simp)
      · exact ih skip d h
    | 0 =>
      simp only [utf8GoAux] at hd
      split at hd
      · rcases List.mem_cons.mp hd with h | h
        · cases h; exact ⟨by decide, by decide⟩
        · exact ih 0 d h
      · rename_i hcond
        split at hd
        · rcases List.mem_cons.mp hd with h | h
          · cases h; exact ⟨by decide, by decide⟩
          · exact ih 0 d h
        · split at hd
          · rcases List.mem_cons.mp hd with h | h
            · cases h
              exact ⟨by show 1 ≤ utf8_char_len b0; omega, le_max_right _ _⟩
            · exact ih _ d h
          · rcases List.mem_cons.mp hd with h | h
            · exact absurd h.symm (by simp)
            · exact ih _ d h

lemma utf16Unit_byte_len (U : Uni) (cu : Nat) :
    (utf16Unit U cu).byte_len = 2 ∧ 1 ≤ (utf16Unit U cu).width := by
  unfold utf16Unit
  rcases h : charFromU32 cu with _ | c
  · simp [h]
  · simp only [h]
    split
    · exact ⟨rfl, le_max_right _ _⟩
    · simp

/-- One-step unfolding of the UTF-16 loop when at least four bytes remain. -/
lemma utf16GoAux_cons4 (U : Uni) (isLe : Bool) (b0 b1 b2 b3 : Byte) (r : List Byte) :
    utf16GoAux U isLe 0 (b0 :: b1 :: b2 :: b3 :: r) =
      if 0xD800 ≤ readU16 isLe b0 b1 ∧ readU16 isLe b0 b1 ≤ 0xDBFF then
        if 0xDC00 ≤ readU16 isLe b2 b3 ∧ readU16 isLe b2 b3 ≤ 0xDFFF then
          (charFromU32 (0x10000 + (((readU16 isLe b0 b1 - 0xD800) <<< 10)
              ||| (readU16 isLe b2 b3 - 0xDC00)))).elim
            (some (utf16Unit U (readU16 isLe b0 b1)) :: none
              :: utf16GoAux U isLe 0 (b2 :: b3 :: r))
            (fun c => some ⟨[c], 4, max (U.gwidth [c]) 1⟩ :: none :: none :: none
              :: utf16GoAux U isLe 0 r)
        else some (utf16Unit U (readU16 isLe b0 b1)) :: none
          :: utf16GoAux U isLe 0 (b2 :: b3 :: r)
      else some (utf16Unit U (readU16 isLe b0 b1)) :: none
        :: utf16GoAux U isLe 0 (b2 :: b3 :: r) := rfl

/-- Unfolding of the UTF-16 loop on exactly two remaining bytes. -/
lemma utf16GoAux_two (U : Uni) (isLe : Bool) (b0 b1 : Byte) :
    utf16GoAux U isLe 0 [b0, b1]
      = [some (utf16Unit U (readU16 isLe b0 b1)), none] := rfl

/-- Unfolding of the UTF-16 loop on exactly three remaining bytes. -/
lemma utf16GoAux_three (U : Uni) (isLe : Bool) (b0 b1 b2 : Byte) :
    utf16GoAux U isLe 0 [b0, b1, b2]
      = [some (utf16Unit U (readU16 isLe b0 b1)), none, some invalidUnit] := rfl

lemma utf16GoAux_units (U : Uni) (isLe : Bool) :
    ∀ (n : Nat) (s : List Byte), s.length ≤ n → ∀ (k : Nat) (d : DecodedChar),
      some d ∈ utf16GoAux U isLe k s → 1 ≤ d.byte_len ∧ 1 ≤ d.width := by
  intro n
  induction n with
  | zero =>
    intro s hs k d hd
    have h0 : s = [] := List.length_eq_zero.mp (Nat.le_zero.mp hs)
    subst h0
    match k with
    | 0 => simp [utf16GoAux] at hd
    | _ + 1 => simp [utf16GoAux] at hd
  | succ n ih =>
    intro s hs k d hd
    have hu := utf16Unit_byte_len U
    match k with
    | skip + 1 =>
      match s with
      | [] => simp [utf16GoAux] at hd
      | b :: rest =>
        simp only [utf16GoAux, List.mem_cons] at hd
        rcases hd with h | h
        · exact absurd h.symm (by simp)
        · exact ih rest (by simp at hs; omega) skip d h
    | 0 =>
      match s with
      | [] => simp [utf16GoAux] at hd
      | [b0] =>
        simp only [utf16GoAux, List.mem_singleton] at hd
        cases hd
        exact ⟨by decide, by decide⟩
      | [b0, b1] =>
        rw [utf16GoAux_two] at hd
        rcases List.mem_cons.mp hd with h | h
        · cases h; have := hu (readU16 isLe b0 b1); omega
        · rcases List.mem_singleton.mp h with h
          exact absurd h.symm (by simp)
      | [b0, b1, b2] =>
        rw [utf16GoAux_three] at hd
        rcases List.mem_cons.mp hd with h | h
        · cases h; have := hu (readU16 isLe b0 b1); omega
        · rcases List.mem_cons.mp h with h | h
          · exact absurd h.symm (by simp)
          · rcases List.mem_singleton.mp h with h
            cases h
            exact ⟨by decide, by decide⟩
      | b0 :: b1 :: b2 :: b3 :: r =>
        have hlen : (b2 :: b3 :: r).length ≤ n := by simp at hs ⊢; omega
        have hlenr : r.length ≤ n := by simp at hs ⊢; omega
        rw [utf16GoAux_cons4] at hd
        split at hd
        · split at hd
          · rcases hcf : charFromU32 (0x10000
                + (((readU16 isLe b0 b1 - 0xD800) <<< 10)
                  ||| (readU16 isLe b2 b3 - 0xDC00))) with _ | c <;>
              simp only [hcf, Option.elim_none, Option.elim_some, List.mem_cons] at hd
            · rcases hd with h | h | h
              · cases h; have := hu (readU16 isLe b0 b1); omega
              · exact absurd h.symm (by simp)
              · exact ih _ hlen 0 d h
            · rcases hd with h | h | h | h | h
              · cases h
                exact ⟨(by decide : (1 : Nat) ≤ 4), le_max_right _ _⟩
              · exact absurd h.symm (by simp)
              · exact absurd h.symm (by simp)
              · exact absurd h.symm (by simp)
              · exact ih _ hlenr 0 d h
          · rcases List.mem_cons.mp hd with h | h
            · cases h; have := hu (readU16 isLe b0 b1); omega
            · rcases List.mem_cons.mp h with h | h
              · exact absurd h.symm (by simp)
              · exact ih _ hlen 0 d h
        · rcases List.mem_cons.mp hd with h | h
          · cases h; have := hu (readU16 isLe b0 b1); omega
          · rcases List.mem_cons.mp h with h | h
            · exact absurd h.symm (by simp)
            · exact ih _ hlen 0 d h

lemma utf16Go_units (U : Uni) (isLe : Bool) (s : List Byte) (d : DecodedChar)
    (hd : some d ∈ utf16Go U isLe s) : 1 ≤ d.byte_len ∧ 1 ≤ d.width :=
  utf16GoAux_units U isLe s.length s le_rfl 0 d hd

lemma tryDecodeLen_spec (U : Uni) (C : Codec) (s : List Byte) (len : Nat)
    (d : DecodedChar) (h : tryDecodeLen U C s len = some d) :
    d.byte_len = len ∧ 1 ≤ d.width := by
  simp only [tryDecodeLen] at h
  split at h
  · rcases hg : U.firstGrapheme (C.decode (s.take len)).1 with _ | g <;>
      simp only [hg] at h
    · exact absurd h (by simp)
    · split at h
      · cases Option.some.inj h
        exact ⟨rfl, le_max_right _ _⟩
      · exact absurd h (by simp)
  · exact absurd h (by simp)

lemma firstSuccess_spec (U : Uni) (C : Codec) (s : List Byte) :
    ∀ (lens : List Nat) (len : Nat) (d : DecodedChar),
      firstSuccess U C s lens = some (len, d) →
      len ∈ lens ∧ d.byte_len = len ∧ 1 ≤ d.width := by
  intro lens
  induction lens with
  | nil => intro len d h; exact absurd h (by simp [firstSuccess])
  | cons l ls ih =>
    intro len d h
    unfold firstSuccess at h
    rcases ht : tryDecodeLen U C s l with _ | d0 <;> simp only [ht] at h
    · have := ih len d h
      exact ⟨List.mem_cons_of_mem _ this.1, this.2⟩
    · obtain ⟨h1, h2⟩ := Prod.mk.inj (Option.some.inj h)
      subst h1
      subst h2
      exact ⟨List.mem_cons_self _ _, tryDecodeLen_spec U C s _ _ ht⟩

lemma encRsAux_units (U : Uni) (C : Codec) :
    ∀ (s : List Byte) (k : Nat) (d : DecodedChar),
      some d ∈ encRsAux U C k s → 1 ≤ d.byte_len ∧ 1 ≤ d.width := by
  intro s
  induction s with
  | nil =>
    intro k d hd
    match k with
    | 0 => simp [encRsAux] at hd
    | _ + 1 => simp [encRsAux] at hd
  | cons b0 rest ih =>
    intro k d hd
    match k with
    | skip + 1 =>
      simp only [encRsAux, List.mem_cons] at hd
      rcases hd with h | h
      · exact absurd h.symm (by simp)
      · exact ih skip d h
    | 0 =>
      simp only [encRsAux] at hd
      split at hd
      · rename_i len d0 hfs
        rcases List.mem_cons.mp hd with h | h
        · cases h
          have hs := firstSuccess_spec U C (b0 :: rest) _ _ _ hfs
          have hmem := hs.1
          simp only [lensUpTo, List.mem_map, List.mem_range] at hmem
          obtain ⟨m, hm1, hm2⟩ := hmem
          have hb := hs.2.1
          have hw := hs.2.2
          constructor
          · omega
          · exact hw
        · exact ih _ d h
      · rcases List.mem_cons.mp hd with h | h
        · cases h; exact ⟨by decide, by decide⟩
        · exact ih 0 d h

/-- C10: every decoded unit has `byte_len ≥ 1` and `width ≥ 1`, for every
input, every supported encoding and every behaviour of the external crates;
a width of 0 never occurs. -/
theorem decoded_unit_min_sizes (U : Uni) (C : Codec) (bytes : List Byte)
    (encoding : CharEncoding) (o : Option DecodedChar)
    (ho : o ∈ decode_for_display U C bytes encoding) (d : DecodedChar)
    (hd : o = some d) : 1 ≤ d.byte_len ∧ 1 ≤ d.width := by
  subst hd
  unfold decode_for_display at ho
  split at ho
  · simp at ho
  · cases encoding with
    | utf8 => exact utf8GoAux_units U bytes 0 d ho
    | utf16Le => exact utf16Go_units U _ bytes d ho
    | utf16Be => exact utf16Go_units U _ bytes d ho
    | shiftJis => exact encRsAux_units U C bytes 0 d ho
    | eucJp => exact encRsAux_units U C bytes 0 d ho
    | iso2022Jp =>
      simp only [List.mem_map] at ho
      obtain ⟨b, _, hb⟩ := ho
      cases Option.some.inj hb
      exact ⟨le_refl 1, le_refl 1⟩
    | ascii =>
      simp only [List.mem_map] at ho
      obtain ⟨b, _, hb⟩ := ho
      cases Option.some.inj hb
      exact ⟨le_refl 1, le_refl 1⟩
    | latin1 =>
      simp only [List.mem_map] at ho
      obtain ⟨b, _, hb⟩ := ho
      cases Option.some.inj hb
      exact ⟨le_refl 1, le_refl 1⟩

/-- Witness for C10 at a concrete decoded unit. -/
theorem decoded_unit_min_sizes_witness :
    1 ≤ (⟨[0x41], 1, 1⟩ : DecodedChar).byte_len ∧
      1 ≤ (⟨[0x41], 1, 1⟩ : DecodedChar).width :=
  decoded_unit_min_sizes uniTrivial codecTrivial [⟨0x41, by decide⟩]
    CharEncoding.ascii (some ⟨[0x41], 1, 1⟩) (by decide) _ rfl

/-- C9: the ASCII and Latin-1 encodings are decoded by the same single-byte
path, and both select the same `encoding_rs` codec in `to_encoding`; the two
are observationally identical for display decoding. -/
theorem ascii_latin1_same_decode (U : Uni) (C : Codec) (bytes : List Byte) :
    decode_for_display U C bytes CharEncoding.ascii =
        decode_for_display U C bytes CharEncoding.latin1 ∧
      CharEncoding.to_encoding CharEncoding.ascii =
        CharEncoding.to_encoding CharEncoding.latin1 :=
  ⟨rfl, rfl⟩

/-- C3: in the UTF-16 decoders, whenever the code unit at the current offset
is a high surrogate, four bytes are available and the next code unit is a low
surrogate, exactly one 4-byte unit is produced at that offset, its code point
given by the standard surrogate-combination formula, and all four bytes are
consumed. -/
theorem utf16_surrogate_pair_unit (U : Uni) (isLe : Bool) (b0 b1 b2 b3 : Byte)
    (rest : List Byte)
    (hHigh : 0xD800 ≤ readU16 isLe b0 b1 ∧ readU16 isLe b0 b1 ≤ 0xDBFF)
    (hLow : 0xDC00 ≤ readU16 isLe b2 b3 ∧ readU16 isLe b2 b3 ≤ 0xDFFF) :
    utf16Go U isLe (b0 :: b1 :: b2 :: b3 :: rest) =
      some ⟨[0x10000 + (((readU16 isLe b0 b1 - 0xD800) <<< 10)
              ||| (readU16 isLe b2 b3 - 0xDC00))], 4,
          max (U.gwidth [0x10000 + (((readU16 isLe b0 b1 - 0xD800) <<< 10)
              ||| (readU16 isLe b2 b3 - 0xDC00))]) 1⟩
        :: none :: none :: none :: utf16Go U isLe rest := by
  have hx : ((readU16 isLe b0 b1 - 0xD800) <<< 10) ||| (readU16 isLe b2 b3 - 0xDC00)
      < 2 ^ 20 := by
    apply Nat.or_lt_two_pow
    · rw [Nat.shiftLeft_eq]
      have h1 : readU16 isLe b0 b1 - 0xD800 < 1024 := by omega
      have e10 : (2 : Nat) ^ 10 = 1024 := by norm_num
      have e20 : (2 : Nat) ^ 20 = 1048576 := by norm_num
      rw [e10, e20]
      omega
    · have h2 : readU16 isLe b2 b3 - 0xDC00 < 1024 := by omega
      have e20 : (2 : Nat) ^ 20 = 1048576 := by norm_num
      rw [e20]
      omega
  rw [show (2 : Nat) ^ 20 = 1048576 from by norm_num] at hx
  have hc : charFromU32 (0x10000 + (((readU16 isLe b0 b1 - 0xD800) <<< 10)
        ||| (readU16 isLe b2 b3 - 0xDC00)))
      = some (0x10000 + (((readU16 isLe b0 b1 - 0xD800) <<< 10)
        ||| (readU16 isLe b2 b3 - 0xDC00))) := by
    unfold charFromU32
    rw [if_neg (by omega), if_neg (by omega)]
  show utf16GoAux U isLe 0 (b0 :: b1 :: b2 :: b3 :: rest) = _
  simp only [utf16GoAux]
  rw [if_pos hHigh, if_pos hLow]
  simp only [hc, Option.elim_some]
  rfl

/-- Witness for C3: the little-endian pair `D801 DC37` decodes to `U+10437`
as one 4-byte unit. -/
theorem utf16_surrogate_pair_unit_witness :
    utf16Go uniTrivial true
        [⟨0x01, by decide⟩, ⟨0xD8, by decide⟩, ⟨0x37, by decide⟩, ⟨0xDC, by decide⟩]
      = [some ⟨[0x10437], 4, 1⟩, none, none, none] :=
  (utf16_surrogate_pair_unit uniTrivial true ⟨0x01, by decide⟩ ⟨0xD8, by decide⟩
      ⟨0x37, by decide⟩ ⟨0xDC, by decide⟩ [] (by decide) (by decide)).trans (by decide)

/-- C6: under the strict single-byte encodings (ASCII and Latin-1) every byte
becomes a unit with `byte_len = 1`, `width = 1`; printable ASCII (including
space) displays literally, control bytes (`< 0x20` or `0x7F`) display as `.`,
and every remaining byte `0x80..=0xFF` displays as the Unicode character whose
code point equals the byte value (such a code point always exists, so the `.`
fallback for an unmappable code point does not trigger). -/
theorem single_byte_decode_units (U : Uni) (C : Codec) (encoding : CharEncoding)
    (henc : encoding = CharEncoding.ascii ∨ encoding = CharEncoding.latin1)
    (bytes : List Byte) (i : Nat) (b : Byte) (hb : bytes[i]? = some b) :
    ∃ d, (decode_for_display U C bytes encoding)[i]? = some (some ⟨d, 1, 1⟩)
      ∧ (((0x21 ≤ b.val ∧ b.val ≤ 0x7E) ∨ b.val = 0x20) → d = [b.val])
      ∧ ((b.val < 0x20 ∨ b.val = 0x7F) → d = [0x2E])
      ∧ (0x80 ≤ b.val → d = [b.val]) := by
  have hne : bytes ≠ [] := by
    intro h
    rw [h] at hb
    simp at hb
  have hmap : (decode_for_display U C bytes encoding)[i]?
      = some (some ⟨singleByteDisplay b, 1, 1⟩) := by
    rcases henc with h | h <;> subst h <;>
      · unfold decode_for_display
        rw [if_neg hne]
        simp [List.getElem?_map, hb]
  refine ⟨singleByteDisplay b, hmap, ?_, ?_, ?_⟩
  · intro hp
    unfold singleByteDisplay
    rw [if_pos hp]
  · intro hc
    unfold singleByteDisplay
    rw [if_neg (by omega), if_pos hc]
  · intro hh
    unfold singleByteDisplay
    rw [if_neg (by omega), if_neg (by omega)]
    have : charFromU32 b.val = some b.val := by
      unfold charFromU32
      have := b.isLt
      rw [if_neg (by omega), if_neg (by omega)]
    rw [this]

/-- Witness for C6: byte `0xE9` under ASCII decodes to the Latin-1 character
`é` (code point 0xE9), not a placeholder. -/
theorem single_byte_decode_units_witness :
    (decode_for_display uniTrivial codecTrivial [⟨0xE9, by decide⟩]
        CharEncoding.ascii)[0]? = some (some ⟨[0xE9], 1, 1⟩) := by
  obtain ⟨d, h1, -, -, h3⟩ := single_byte_decode_units uniTrivial codecTrivial
    CharEncoding.ascii (Or.inl rfl) [⟨0xE9, by decide⟩] 0 ⟨0xE9, by decide⟩ (by decide)
  rw [h3 (by decide)] at h1
  exact h1

/-! ### C1: the decode map partitions the byte range -/

/-- One-step unfolding of the UTF-8 validator on a non-empty list. -/
lemma utf8Decode_cons_eq (b0 : Byte) (rest : List Byte) :
    utf8Decode (b0 :: rest) =
      (if b0.val ≤ 0x7F then
        (utf8Decode rest).map (b0.val :: ·)
      else if 0xC2 ≤ b0.val ∧ b0.val ≤ 0xDF then
        match rest with
        | b1 :: rest1 =>
          if isCont b1 then
            (utf8Decode rest1).map (fun cps => ((b0.val % 0x20) * 0x40 + b1.val % 0x40) :: cps)
          else none
        | [] => none
      else if 0xE0 ≤ b0.val ∧ b0.val ≤ 0xEF then
        match rest with
        | b1 :: b2 :: rest2 =>
          if isCont b1 && isCont b2
              && !(decide (b0.val = 0xE0) && decide (b1.val < 0xA0))
              && !(decide (b0.val = 0xED) && decide (0x9F < b1.val)) then
            (utf8Decode rest2).map
              (fun cps => ((b0.val % 0x10) * 0x1000 + (b1.val % 0x40) * 0x40 + b2.val % 0x40) :: cps)
          else none
        | _ => none
      else if 0xF0 ≤ b0.val ∧ b0.val ≤ 0xF4 then
        match rest with
        | b1 :: b2 :: b3 :: rest3 =>
          if isCont b1 && isCont b2 && isCont b3
              && !(decide (b0.val = 0xF0) && decide (b1.val < 0x90))
              && !(decide (b0.val = 0xF4) && decide (0x8F < b1.val)) then
            (utf8Decode rest3).map
              (fun cps => ((b0.val % 8) * 0x40000 + (b1.val % 0x40) * 0x1000
                + (b2.val % 0x40) * 0x40 + b3.val % 0x40) :: cps)
          else none
        | _ => none
      else none) := by
  cases rest with
  | nil => rfl
  | cons b1 rest1 =>
    cases rest1 with
    | nil => rfl
    | cons b2 rest2 =>
      cases rest2 with
      | nil => rfl
      | cons b3 rest3 => rfl

lemma utf8Decode_cons_ne_some_nil (b : Byte) (t : List Byte) :
    utf8Decode (b :: t) ≠ some [] := by
  intro h
  rw [utf8Decode_cons_eq] at h
  by_cases h1 : b.val ≤ 0x7F
  · rw [if_pos h1] at h
    obtain ⟨a, -, ha⟩ := Option.map_eq_some'.mp h
    exact List.noConfusion ha
  rw [if_neg h1] at h
  by_cases h2 : 0xC2 ≤ b.val ∧ b.val ≤ 0xDF
  · rw [if_pos h2] at h
    split at h
    · split at h
      · obtain ⟨a, -, ha⟩ := Option.map_eq_some'.mp h
        exact List.noConfusion ha
      · exact Option.noConfusion h
    · exact Option.noConfusion h
  rw [if_neg h2] at h
  by_cases h3 : 0xE0 ≤ b.val ∧ b.val ≤ 0xEF
  · rw [if_pos h3] at h
    split at h
    · split at h
      · obtain ⟨a, -, ha⟩ := Option.map_eq_some'.mp h
        exact List.noConfusion ha
      · exact Option.noConfusion h
    · exact Option.noConfusion h
  rw [if_neg h3] at h
  by_cases h4 : 0xF0 ≤ b.val ∧ b.val ≤ 0xF4
  · rw [if_pos h4] at h
    split at h
    · split at h
      · obtain ⟨a, -, ha⟩ := Option.map_eq_some'.mp h
        exact List.noConfusion ha
      · exact Option.noConfusion h
    · exact Option.noConfusion h
  rw [if_neg h4] at h
  exact Option.noConfusion h

lemma singleByte_partition (bytes : List Byte) :
    isPartitionAux 0 (bytes.map (fun b => some ⟨singleByteDisplay b, 1, 1⟩)) = true := by
  induction bytes with
  | nil => rfl
  | cons b rest ih => simpa [isPartitionAux] using ih

lemma utf8GoAux_length (U : Uni) :
    ∀ (s : List Byte) (k : Nat), (utf8GoAux U k s).length = s.length := by
  intro s
  induction s with
  | nil =>
    intro k
    match k with
    | 0 => rfl
    | _ + 1 => rfl
  | cons b0 rest ih =>
    intro k
    match k with
    | skip + 1 => simp [utf8GoAux, ih]
    | 0 =>
      simp only [utf8GoAux]
      split
      · simp [ih]
      · split
        · simp [ih]
        · split
          · simp [ih]
          · simp [ih]

lemma utf8GoAux_partition (U : Uni)
    (hU : ∀ s : List Nat, s ≠ [] → (U.firstGrapheme s).isSome) :
    ∀ (s : List Byte) (k : Nat), k ≤ s.length →
      isPartitionAux k (utf8GoAux U k s) = true := by
  intro s
  induction s with
  | nil =>
    intro k hk
    have h0 : k = 0 := Nat.le_zero.mp hk
    subst h0
    rfl
  | cons b0 rest ih =>
    intro k hk
    match k with
    | skip + 1 =>
      simp only [utf8GoAux, isPartitionAux, Option.isNone_none, Bool.true_and]
      exact ih skip (by simp at hk; omega)
    | 0 =>
      simp only [utf8GoAux]
      split
      · simpa [isPartitionAux, invalidUnit] using ih 0 (by simp)
      · rename_i hcond
        split
        · simpa [isPartitionAux, invalidUnit] using ih 0 (by simp)
        · rename_i os s0 hdec
          split
          · rename_i g hg
            simp only [isPartitionAux]
            rw [decide_eq_true (by omega : 1 ≤ utf8_char_len b0)]
            simpa using ih (utf8_char_len b0 - 1) (by omega)
          · rename_i hg
            exfalso
            have hL : 1 ≤ utf8_char_len b0 := by omega
            have htake : (b0 :: rest).take (utf8_char_len b0)
                = b0 :: rest.take (utf8_char_len b0 - 1) := by
              match hL2 : utf8_char_len b0, hL with
              | L + 1, _ => simp [List.take_succ_cons]
            rw [htake] at hdec
            have hne : s0 ≠ [] := by
              intro h0
              subst h0
              exact utf8Decode_cons_ne_some_nil _ _ hdec
            have := hU s0 hne
            rw [hg] at this
            simp at this

lemma utf16GoAux_length (U : Uni) (isLe : Bool) :
    ∀ (n : Nat) (s : List Byte), s.length ≤ n →
      (utf16GoAux U isLe 0 s).length = s.length := by
  intro n
  induction n with
  | zero =>
    intro s hs
    have h0 : s = [] := List.length_eq_zero.mp (Nat.le_zero.mp hs)
    subst h0
    rfl
  | succ n ih =>
    intro s hs
    match s with
    | [] => rfl
    | [b0] => rfl
    | [b0, b1] => rw [utf16GoAux_two]; rfl
    | [b0, b1, b2] => rw [utf16GoAux_three]; rfl
    | b0 :: b1 :: b2 :: b3 :: r =>
      have hlen : (b2 :: b3 :: r).length ≤ n := by simp at hs ⊢; omega
      have hlenr : r.length ≤ n := by simp at hs ⊢; omega
      rw [utf16GoAux_cons4]
      split
      · split
        · rcases hcf : charFromU32 (0x10000
              + (((readU16 isLe b0 b1 - 0xD800) <<< 10)
                ||| (readU16 isLe b2 b3 - 0xDC00))) with _ | c <;>
            simp only [hcf, Option.elim_none, Option.elim_some]
          · simp only [List.length_cons, ih _ hlen]
          · simp only [List.length_cons, ih _ hlenr]
        · simp only [List.length_cons, ih _ hlen]
      · simp only [List.length_cons, ih _ hlen]

lemma utf16GoAux_partition (U : Uni) (isLe : Bool) :
    ∀ (n : Nat) (s : List Byte), s.length ≤ n →
      isPartitionAux 0 (utf16GoAux U isLe 0 s) = true := by
  intro n
  induction n with
  | zero =>
    intro s hs
    have h0 : s = [] := List.length_eq_zero.mp (Nat.le_zero.mp hs)
    subst h0
    rfl
  | succ n ih =>
    intro s hs
    match s with
    | [] => rfl
    | [b0] => rfl
    | [b0, b1] =>
      rw [utf16GoAux_two]
      obtain ⟨hb, -⟩ := utf16Unit_byte_len U (readU16 isLe b0 b1)
      simp [isPartitionAux, hb]
    | [b0, b1, b2] =>
      rw [utf16GoAux_three]
      obtain ⟨hb, -⟩ := utf16Unit_byte_len U (readU16 isLe b0 b1)
      simp [isPartitionAux, hb, invalidUnit]
    | b0 :: b1 :: b2 :: b3 :: r =>
      have hlen : (b2 :: b3 :: r).length ≤ n := by simp at hs ⊢; omega
      have hlenr : r.length ≤ n := by simp at hs ⊢; omega
      obtain ⟨hb, -⟩ := utf16Unit_byte_len U (readU16 isLe b0 b1)
      rw [utf16GoAux_cons4]
      split
      · split
        · rcases hcf : charFromU32 (0x10000
              + (((readU16 isLe b0 b1 - 0xD800) <<< 10)
                ||| (readU16 isLe b2 b3 - 0xDC00))) with _ | c <;>
            simp only [hcf, Option.elim_none, Option.elim_some]
          · simpa [isPartitionAux, hb] using ih _ hlen
          · simpa [isPartitionAux] using ih _ hlenr
        · simpa [isPartitionAux, hb] using ih _ hlen
      · simpa [isPartitionAux, hb] using ih _ hlen

lemma encRsAux_length (U : Uni) (C : Codec) :
    ∀ (s : List Byte) (k : Nat), (encRsAux U C k s).length = s.length := by
  intro s
  induction s with
  | nil =>
    intro k
    match k with
    | 0 => rfl
    | _ + 1 => rfl
  | cons b0 rest ih =>
    intro k
    match k with
    | skip + 1 => simp [encRsAux, ih]
    | 0 =>
      simp only [encRsAux]
      split
      · simp [ih]
      · simp [ih]

lemma encRsAux_partition (U : Uni) (C : Codec) :
    ∀ (s : List Byte) (k : Nat), k ≤ s.length →
      isPartitionAux k (encRsAux U C k s) = true := by
  intro s
  induction s with
  | nil =>
    intro k hk
    have h0 : k = 0 := Nat.le_zero.mp hk
    subst h0
    rfl
  | cons b0 rest ih =>
    intro k hk
    match k with
    | skip + 1 =>
      simp only [encRsAux, isPartitionAux, Option.isNone_none, Bool.true_and]
      exact ih skip (by simp at hk; omega)
    | 0 =>
      simp only [encRsAux]
      split
      · rename_i len d0 hfs
        have hs := firstSuccess_spec U C (b0 :: rest) _ _ _ hfs
        have hmem := hs.1
        simp only [lensUpTo, List.mem_map, List.mem_range] at hmem
        obtain ⟨m, hm1, hm2⟩ := hmem
        have hb := hs.2.1
        simp only [isPartitionAux, hb]
        rw [decide_eq_true (by omega : 1 ≤ len)]
        simp only [Bool.true_and]
        exact ih (len - 1) (by simp; omega)
      · simpa [isPartitionAux, invalidUnit] using ih 0 (by simp)

/-- C1: for every byte sequence and every supported encoding, the decode map
has one slot per byte (empty for empty input), and its non-empty slots, in
ascending offset order together with their `byte_len`, exactly partition the
byte range into contiguous non-overlapping spans, for every behaviour of the
external crates (the segmentation oracle being total on non-empty strings, as
`unicode_segmentation` is). -/
theorem decode_for_display_partitions (U : Uni) (C : Codec) (bytes : List Byte)
    (encoding : CharEncoding)
    (hU : ∀ s : List Nat, s ≠ [] → (U.firstGrapheme s).isSome) :
    (decode_for_display U C bytes encoding).length = bytes.length ∧
      isPartition (decode_for_display U C bytes encoding) = true := by
  unfold decode_for_display isPartition
  split
  · rename_i hb
    subst hb
    exact ⟨rfl, rfl⟩
  · cases encoding with
    | utf8 =>
      exact ⟨utf8GoAux_length U bytes 0, utf8GoAux_partition U hU bytes 0 (by simp)⟩
    | utf16Le =>
      exact ⟨utf16GoAux_length U _ bytes.length bytes le_rfl,
        utf16GoAux_partition U _ bytes.length bytes le_rfl⟩
    | utf16Be =>
      exact ⟨utf16GoAux_length U _ bytes.length bytes le_rfl,
        utf16GoAux_partition U _ bytes.length bytes le_rfl⟩
    | shiftJis =>
      exact ⟨encRsAux_length U C bytes 0, encRsAux_partition U C bytes 0 (by simp)⟩
    | eucJp =>
      exact ⟨encRsAux_length U C bytes 0, encRsAux_partition U C bytes 0 (by simp)⟩
    | iso2022Jp => exact ⟨by simp, singleByte_partition bytes⟩
    | ascii => exact ⟨by simp, singleByte_partition bytes⟩
    | latin1 => exact ⟨by simp, singleByte_partition bytes⟩

/-- Witness for C1 on a concrete UTF-8 input mixing valid multi-byte,
truncated and invalid bytes. -/
theorem decode_for_display_partitions_witness :
    (decode_for_display uniTrivial codecTrivial
        [⟨0x41, by decide⟩, ⟨0xE3, by decide⟩, ⟨0x81, by decide⟩, ⟨0x82, by decide⟩,
          ⟨0xFF, by decide⟩] CharEncoding.utf8).length = 5 ∧
      isPartition (decode_for_display uniTrivial codecTrivial
        [⟨0x41, by decide⟩, ⟨0xE3, by decide⟩, ⟨0x81, by decide⟩, ⟨0x82, by decide⟩,
          ⟨0xFF, by decide⟩] CharEncoding.utf8) = true :=
  decode_for_display_partitions uniTrivial codecTrivial _ CharEncoding.utf8
    uniTrivial_firstGrapheme_total

/-! ### C7: `hex_to_bytes` errors exactly on odd cleaned length -/

lemma hexVal_isSome_of_hexDigit (c : Char) (h : isAsciiHexDigit c = true) :
    (hexVal c).isSome := by
  simp only [isAsciiHexDigit, decide_eq_true_eq] at h
  unfold hexVal
  rcases h with h | h | h
  · rw [dif_pos h]; rfl
  · rw [dif_neg (by omega), dif_pos h]; rfl
  · rw [dif_neg (by omega), dif_neg (by omega), dif_pos h]; rfl

lemma parsePairs_ok : ∀ (n : Nat) (l : List Char), l.length ≤ n →
    (∀ c ∈ l, isAsciiHexDigit c = true) → l.length % 2 = 0 →
    ∃ bs, parsePairs l = .ok bs := by
  intro n
  induction n with
  | zero =>
    intro l hl _ _
    have h0 : l = [] := List.length_eq_zero.mp (Nat.le_zero.mp hl)
    subst h0
    exact ⟨[], rfl⟩
  | succ n ih =>
    intro l hl hhex heven
    match l with
    | [] => exact ⟨[], rfl⟩
    | [c] => simp at heven
    | c1 :: c2 :: rest =>
      have h1 := hexVal_isSome_of_hexDigit c1 (hhex c1 (by simp))
      have h2 := hexVal_isSome_of_hexDigit c2 (hhex c2 (by simp))
      rcases hv1 : hexVal c1 with _ | v1
      · rw [hv1] at h1; simp at h1
      rcases hv2 : hexVal c2 with _ | v2
      · rw [hv2] at h2; simp at h2
      obtain ⟨bs, hbs⟩ := ih rest (by simp at hl; omega)
        (fun c hc => hhex c (by simp [hc]))
        (by simp at heven ⊢; omega)
      refine ⟨⟨v1.val * 16 + v2.val, by omega⟩ :: bs, ?_⟩
      simp only [parsePairs, hv1, hv2, hbs]

lemma cleanHex_all_hexDigits (s : List Char) :
    ∀ c ∈ cleanHex s, isAsciiHexDigit c = true := by
  intro c hc
  unfold cleanHex at hc
  exact (List.mem_filter.mp hc).2

/-- C7: `hex_to_bytes` returns an invalid-input error exactly when the
cleaned string has odd length; on even cleaned length it decodes the digit
pairs and succeeds, and the only error ever produced is the odd-length one
(never one naming a malformed digit pair). -/
theorem hex_to_bytes_error_iff_odd (hex : List Char) :
    (hex_to_bytes hex = .error (.invalidHex evenLengthMsg) ↔
        (cleanHex hex).length % 2 = 1)
      ∧ ((cleanHex hex).length % 2 = 0 →
          hex_to_bytes hex = parsePairs (cleanHex hex)
            ∧ ∃ bs, hex_to_bytes hex = .ok bs)
      ∧ (∀ e, hex_to_bytes hex = .error e → e = .invalidHex evenLengthMsg) := by
  unfold hex_to_bytes
  by_cases hodd : (cleanHex hex).length % 2 ≠ 0
  · rw [if_pos hodd]
    refine ⟨⟨fun _ => by omega, fun _ => rfl⟩, fun heven => absurd heven hodd, ?_⟩
    intro e he
    exact (Except.error.inj he).symm
  · rw [if_neg hodd]
    push_neg at hodd
    obtain ⟨bs, hbs⟩ := parsePairs_ok (cleanHex hex).length (cleanHex hex) le_rfl
      (cleanHex_all_hexDigits hex) hodd
    refine ⟨⟨fun h => ?_, fun h => by omega⟩, fun _ => ⟨rfl, ⟨bs, hbs⟩⟩, ?_⟩
    · rw [hbs] at h
      exact absurd h (by simp)
    · intro e he
      rw [hbs] at he
      exact absurd he (by simp)

/-- Witness for C7: the spec's example input `"ABC"` is rejected with the
odd-length error. -/
theorem hex_to_bytes_error_iff_odd_witness :
    hex_to_bytes ('A' :: 'B' :: 'C' :: []) = .error (.invalidHex evenLengthMsg) :=
  (hex_to_bytes_error_iff_odd ('A' :: 'B' :: 'C' :: [])).1.mpr (by decide)

/-! ### C2: the hex round-trip law -/

lemma replaceAll_single (p : Char) :
    ∀ s : List Char, replaceAllAux [p] [] 0 s = s.filter (fun c => !(c == p)) := by
  intro s
  induction s with
  | nil => rfl
  | cons c rest ih =>
    simp only [replaceAllAux, List.filter_cons]
    by_cases h : c = p
    · subst h
      rw [if_pos ⟨by simp [List.isPrefixOf], by simp⟩]
      simpa using ih
    · rw [if_neg (by simp [List.isPrefixOf]; intro hc; first
        | exact absurd hc h | exact absurd hc.symm h)]
      rw [ih]
      rw [if_pos (by simp [h])]

lemma twoChar_not_pre (p0 p1 c : Char) (rest : List Char)
    (hne : ∀ x, rest.head? = some x → p1 ≠ x) :
    ¬(List.isPrefixOf [p0, p1] (c :: rest) = true ∧ 1 ≤ ([p0, p1] : List Char).length) := by
  intro hand
  have hpre := hand.1
  cases rest with
  | nil => simp [List.isPrefixOf] at hpre
  | cons c2 r2 =>
    simp [List.isPrefixOf] at hpre
    exact hne c2 rfl hpre.2

lemma replaceAll_two_skip (p0 p1 : Char) :
    ∀ (l t : List Char), p1 ∉ l → (∀ x, t.head? = some x → p1 ≠ x) →
      replaceAllAux [p0, p1] [] 0 (l ++ t) = l ++ replaceAllAux [p0, p1] [] 0 t := by
  intro l
  induction l with
  | nil => intro t _ _; rfl
  | cons c l' ih =>
    intro t hl ht
    have hhead : ∀ x, (l' ++ t).head? = some x → p1 ≠ x := by
      intro x hx
      cases l' with
      | nil => exact ht x hx
      | cons c2 r2 =>
        simp at hx
        subst hx
        intro h0
        exact hl (by simp [h0])
    show replaceAllAux [p0, p1] [] 0 (c :: (l' ++ t)) = _
    simp only [replaceAllAux]
    rw [if_neg (twoChar_not_pre p0 p1 c (l' ++ t) hhead)]
    rw [ih t (fun h0 => hl (by simp [h0])) ht]
    simp

lemma replaceAll_two_none (p0 p1 : Char) (s : List Char) (h : p1 ∉ s) :
    replaceAllAux [p0, p1] [] 0 s = s := by
  have h2 := replaceAll_two_skip p0 p1 s [] h (by intro x hx; simp at hx)
  simpa [replaceAllAux] using h2

lemma replaceAll_two_match (p0 p1 : Char) (t : List Char) :
    replaceAllAux [p0, p1] [] 0 (p0 :: p1 :: t) = replaceAllAux [p0, p1] [] 0 t := by
  simp only [replaceAllAux]
  rw [if_pos ⟨by simp [List.isPrefixOf], by simp⟩]
  simp only [List.nil_append, List.length_cons, List.length_singleton]

lemma hexDigitChar_facts (n : Nat) (h : n < 16) :
    isAsciiHexDigit (hexDigitChar n) = true ∧ hexDigitChar n ≠ ' '
      ∧ hexDigitChar n ≠ ',' ∧ hexDigitChar n ≠ 'x' ∧ hexDigitChar n ≠ 'X'
      ∧ hexDigitChar n ≠ '{' ∧ hexDigitChar n ≠ '}' := by
  interval_cases n <;> exact (by decide)

lemma mem_hexPairChars (b : Byte) (c : Char) (hc : c ∈ hexPairChars b) :
    ∃ n, n < 16 ∧ c = hexDigitChar n := by
  have h1 : b.val / 16 < 16 := by have := b.isLt; omega
  have h2 : b.val % 16 < 16 := by omega
  simp only [hexPairChars, List.mem_cons, List.mem_singleton] at hc
  rcases hc with hc | hc | hc
  · exact ⟨b.val / 16, h1, hc⟩
  · exact ⟨b.val % 16, h2, hc⟩
  · simp at hc

lemma mem_flatten_hexPairs (bs : List Byte) (c : Char)
    (hc : c ∈ List.flatten (bs.map hexPairChars)) :
    ∃ n, n < 16 ∧ c = hexDigitChar n := by
  simp only [List.mem_flatten, List.mem_map] at hc
  obtain ⟨l, ⟨b, -, hb⟩, hcl⟩ := hc
  exact mem_hexPairChars b c (hb ▸ hcl)

lemma joinSep_nil_eq_flatten : ∀ parts : List (List Char), joinSep [] parts = parts.flatten := by
  intro parts
  induction parts with
  | nil => rfl
  | cons x xs ih =>
    cases xs with
    | nil => simp [joinSep]
    | cons y ys => simp only [joinSep] at ih ⊢; simp [ih]

lemma filter_joinSep (f : Char → Bool) (sep : List Char) :
    ∀ parts : List (List Char),
      List.filter f (joinSep sep parts) = joinSep (sep.filter f) (parts.map (List.filter f)) := by
  intro parts
  induction parts with
  | nil => rfl
  | cons x xs ih =>
    cases xs with
    | nil => simp [joinSep]
    | cons y ys =>
      simp only [joinSep, List.map_cons] at ih ⊢
      simp [List.filter_append, ih]

lemma H_facts (bs : List Byte) (c : Char)
    (hc : c ∈ List.flatten (bs.map hexPairChars)) :
    isAsciiHexDigit c = true ∧ c ≠ ' ' ∧ c ≠ ',' ∧ c ≠ 'x' ∧ c ≠ 'X'
      ∧ c ≠ '{' ∧ c ≠ '}' := by
  obtain ⟨n, hn, he⟩ := mem_flatten_hexPairs bs c hc
  subst he
  exact hexDigitChar_facts n hn

lemma not_x_mem_flatten_hexPairs (bs : List Byte) :
    'x' ∉ List.flatten (bs.map hexPairChars) := by
  intro hx
  exact (H_facts bs 'x' hx).2.2.2.1 rfl

lemma not_x_mem_hexPairChars (b : Byte) : 'x' ∉ hexPairChars b := by
  intro hx
  obtain ⟨n, hn, he⟩ := mem_hexPairChars b 'x' hx
  exact (hexDigitChar_facts n hn).2.2.2.1 he.symm

lemma strip_prefixed : ∀ (bs : List Byte) (t : List Char), 'x' ∉ t →
    replaceAllAux ['0', 'x'] [] 0
        (List.flatten (bs.map (fun b => '0' :: 'x' :: hexPairChars b)) ++ t)
      = List.flatten (bs.map hexPairChars) ++ t := by
  intro bs
  induction bs with
  | nil =>
    intro t ht
    simpa using replaceAll_two_none '0' 'x' t ht
  | cons b0 bs' ih =>
    intro t ht
    have e : List.flatten ((b0 :: bs').map (fun b => '0' :: 'x' :: hexPairChars b)) ++ t
        = '0' :: 'x' :: (hexPairChars b0
            ++ (List.flatten (bs'.map (fun b => '0' :: 'x' :: hexPairChars b)) ++ t)) := by
      simp
    rw [e, replaceAll_two_match]
    have hhd : ∀ x,
        (List.flatten (bs'.map (fun b => '0' :: 'x' :: hexPairChars b)) ++ t).head? = some x
          → 'x' ≠ x := by
      cases bs' with
      | nil =>
        simp only [List.map_nil, List.flatten_nil, List.nil_append]
        intro x hx
        cases t with
        | nil => simp at hx
        | cons c t' =>
          simp at hx
          subst hx
          intro h0
          exact ht (by simp [← h0])
      | cons b1 bs'' =>
        intro x hx
        simp at hx
        subst hx
        decide
    rw [replaceAll_two_skip '0' 'x' (hexPairChars b0) _ (not_x_mem_hexPairChars b0) hhd]
    rw [ih t ht]
    simp

lemma cleanHex_eq_of_space_step (s0 : List Char) (b : List Byte)
    (h : replaceAllAux [' '] [] 0 s0 = List.flatten (b.map hexPairChars)) :
    cleanHex s0 = List.flatten (b.map hexPairChars) := by
  have hfacts := H_facts b
  have e2 : List.filter (fun c => !(c == ',')) (List.flatten (b.map hexPairChars))
      = List.flatten (b.map hexPairChars) :=
    List.filter_eq_self.mpr (fun c hc => by simp [(hfacts c hc).2.2.1])
  have e5 : List.filter (fun c => !(c == '{')) (List.flatten (b.map hexPairChars))
      = List.flatten (b.map hexPairChars) :=
    List.filter_eq_self.mpr (fun c hc => by simp [(hfacts c hc).2.2.2.2.2.1])
  have e6 : List.filter (fun c => !(c == '}')) (List.flatten (b.map hexPairChars))
      = List.flatten (b.map hexPairChars) :=
    List.filter_eq_self.mpr (fun c hc => by simp [(hfacts c hc).2.2.2.2.2.2])
  have e7 : List.filter isAsciiHexDigit (List.flatten (b.map hexPairChars))
      = List.flatten (b.map hexPairChars) :=
    List.filter_eq_self.mpr (fun c hc => (hfacts c hc).1)
  unfold cleanHex replaceAll
  rw [h, replaceAll_single ',', e2,
    replaceAll_two_none '0' 'x' _ (not_x_mem_flatten_hexPairs b),
    replaceAll_two_none '0' 'X' _ (fun hX => (hfacts 'X' hX).2.2.2.2.1 rfl),
    replaceAll_single '{', e5, replaceAll_single '}', e6, e7]

lemma cleanHex_continuous (b : List Byte) :
    cleanHex (bytes_to_hex b HexFormat.continuous)
      = List.flatten (b.map hexPairChars) := by
  apply cleanHex_eq_of_space_step
  rw [replaceAll_single ' ']
  exact List.filter_eq_self.mpr (fun c hc => by simp [(H_facts b c hc).2.1])

lemma cleanHex_spaced (b : List Byte) :
    cleanHex (bytes_to_hex b HexFormat.spaced)
      = List.flatten (b.map hexPairChars) := by
  apply cleanHex_eq_of_space_step
  show replaceAllAux [' '] [] 0 (joinSep [' '] (b.map hexPairChars)) = _
  rw [replaceAll_single ' ', filter_joinSep]
  have hsep : ([' '] : List Char).filter (fun c => !(c == ' ')) = [] := by decide
  have hparts : (b.map hexPairChars).map (List.filter (fun c => !(c == ' ')))
      = b.map hexPairChars := by
    rw [List.map_map]
    apply List.map_congr_left
    intro x _
    exact List.filter_eq_self.mpr (fun c hc => by
      obtain ⟨n, hn, he⟩ := mem_hexPairChars x c hc
      subst he
      simp [(hexDigitChar_facts n hn).2.1])
  rw [hsep, hparts, joinSep_nil_eq_flatten]

lemma cleanHex_cArray (b : List Byte) :
    cleanHex (bytes_to_hex b HexFormat.cArray)
      = List.flatten (b.map hexPairChars) := by
  have hfacts := H_facts b
  have fparts : ∀ (f : Char → Bool), (∀ n, n < 16 → f (hexDigitChar n) = true) →
      f '0' = true → f 'x' = true →
      (b.map (fun x => '0' :: 'x' :: hexPairChars x)).map (List.filter f)
        = b.map (fun x => '0' :: 'x' :: hexPairChars x) := by
    intro f hdig h0 hx
    rw [List.map_map]
    apply List.map_congr_left
    intro y _
    show List.filter f ('0' :: 'x' :: hexPairChars y) = _
    rw [List.filter_cons, if_pos h0, List.filter_cons, if_pos hx]
    rw [List.filter_eq_self.mpr (fun c hc => by
      obtain ⟨n, hn, he⟩ := mem_hexPairChars y c hc
      subst he
      exact hdig n hn)]
  have st1 : replaceAllAux [' '] [] 0 (bytes_to_hex b HexFormat.cArray)
      = '{' :: (joinSep [','] (b.map (fun x => '0' :: 'x' :: hexPairChars x)) ++ ['}']) := by
    rw [replaceAll_single ' ']
    show List.filter (fun c => !(c == ' '))
        (['{', ' '] ++ joinSep [',', ' '] (b.map (fun x => ['0', 'x'] ++ hexPairChars x))
          ++ [' ', '}']) = _
    rw [List.filter_append, List.filter_append, filter_joinSep]
    rw [show (['{', ' '] : List Char).filter (fun c => !(c == ' ')) = ['{'] from by decide]
    rw [show ([' ', '}'] : List Char).filter (fun c => !(c == ' ')) = ['}'] from by decide]
    rw [show ([',', ' '] : List Char).filter (fun c => !(c == ' ')) = [','] from by decide]
    rw [show (b.map (fun x => (['0', 'x'] : List Char) ++ hexPairChars x))
        = b.map (fun x => '0' :: 'x' :: hexPairChars x) from by simp]
    rw [fparts _ (fun n hn => by simp [(hexDigitChar_facts n hn).2.1]) (by decide) (by decide)]
    simp
  have st2 : replaceAllAux [','] [] 0
        ('{' :: (joinSep [','] (b.map (fun x => '0' :: 'x' :: hexPairChars x)) ++ ['}']))
      = '{' :: (List.flatten (b.map (fun x => '0' :: 'x' :: hexPairChars x)) ++ ['}']) := by
    rw [replaceAll_single ',']
    rw [show ('{' :: (joinSep [','] (b.map (fun x => '0' :: 'x' :: hexPairChars x)) ++ ['}']))
        = ['{'] ++ joinSep [','] (b.map (fun x => '0' :: 'x' :: hexPairChars x)) ++ ['}'] from by simp]
    rw [List.filter_append, List.filter_append, filter_joinSep]
    rw [show (['{'] : List Char).filter (fun c => !(c == ',')) = ['{'] from by decide]
    rw [show (['}'] : List Char).filter (fun c => !(c == ',')) = ['}'] from by decide]
    rw [show ([','] : List Char).filter (fun c => !(c == ',')) = [] from by decide]
    rw [fparts _ (fun n hn => by simp [(hexDigitChar_facts n hn).2.2.1]) (by decide) (by decide)]
    rw [joinSep_nil_eq_flatten]
    simp
  have st3 : replaceAllAux ['0', 'x'] [] 0
        ('{' :: (List.flatten (b.map (fun x => '0' :: 'x' :: hexPairChars x)) ++ ['}']))
      = '{' :: (List.flatten (b.map hexPairChars) ++ ['}']) := by
    have hhd : ∀ x, (List.flatten (b.map (fun x => '0' :: 'x' :: hexPairChars x)) ++ ['}']).head?
        = some x → 'x' ≠ x := by
      cases b with
      | nil => intro x hx; simp at hx; subst hx; decide
      | cons b0 bs => intro x hx; simp at hx; subst hx; decide
    have e : ('{' :: (List.flatten (b.map (fun x => '0' :: 'x' :: hexPairChars x)) ++ ['}']))
        = ['{'] ++ (List.flatten (b.map (fun x => '0' :: 'x' :: hexPairChars x)) ++ ['}']) := rfl
    rw [e, replaceAll_two_skip '0' 'x' ['{'] _ (by decide) hhd]
    rw [strip_prefixed b ['}'] (by decide)]
    rfl
  have st4 : replaceAllAux ['0', 'X'] [] 0
        ('{' :: (List.flatten (b.map hexPairChars) ++ ['}']))
      = '{' :: (List.flatten (b.map hexPairChars) ++ ['}']) := by
    apply replaceAll_two_none
    intro hX
    simp only [List.mem_cons, List.mem_append, List.mem_singleton] at hX
    rcases hX with hX | hX | hX
    · simp at hX
    · exact (hfacts 'X' hX).2.2.2.2.1 rfl
    · simp at hX
  have st5 : replaceAllAux ['{'] [] 0
        ('{' :: (List.flatten (b.map hexPairChars) ++ ['}']))
      = List.flatten (b.map hexPairChars) ++ ['}'] := by
    rw [replaceAll_single '{']
    rw [show ('{' :: (List.flatten (b.map hexPairChars) ++ ['}']))
        = ['{'] ++ (List.flatten (b.map hexPairChars) ++ ['}']) from rfl]
    rw [List.filter_append, List.filter_append]
    rw [show (['{'] : List Char).filter (fun c => !(c == '{')) = [] from by decide]
    rw [show (['}'] : List Char).filter (fun c => !(c == '{')) = ['}'] from by decide]
    rw [List.filter_eq_self.mpr (fun c hc => by simp [(hfacts c hc).2.2.2.2.2.1])]
    simp
  have st6 : replaceAllAux ['}'] [] 0 (List.flatten (b.map hexPairChars) ++ ['}'])
      = List.flatten (b.map hexPairChars) := by
    rw [replaceAll_single '}']
    rw [List.filter_append]
    rw [show (['}'] : List Char).filter (fun c => !(c == '}')) = [] from by decide]
    rw [List.filter_eq_self.mpr (fun c hc => by simp [(hfacts c hc).2.2.2.2.2.2])]
    simp
  have e7 : List.filter isAsciiHexDigit (List.flatten (b.map hexPairChars))
      = List.flatten (b.map hexPairChars) :=
    List.filter_eq_self.mpr (fun c hc => (hfacts c hc).1)
  unfold cleanHex replaceAll
  rw [st1, st2, st3, st4, st5, st6, e7]

lemma hexVal_hexDigitChar (n : Nat) (h : n < 16) :
    hexVal (hexDigitChar n) = some ⟨n, h⟩ := by
  interval_cases n <;> rfl

lemma parsePairs_flatten : ∀ bs : List Byte,
    parsePairs (List.flatten (bs.map hexPairChars)) = .ok bs := by
  intro bs
  induction bs with
  | nil => rfl
  | cons b rest ih =>
    have h1 : b.val / 16 < 16 := by have := b.isLt; omega
    have h2 : b.val % 16 < 16 := by omega
    show parsePairs (hexDigitChar (b.val / 16) :: hexDigitChar (b.val % 16)
      :: List.flatten (rest.map hexPairChars)) = _
    simp only [parsePairs, hexVal_hexDigitChar _ h1, hexVal_hexDigitChar _ h2, ih]
    have hb : (⟨b.val / 16 * 16 + b.val % 16, by omega⟩ : Fin 256) = b := by
      apply Fin.ext
      show b.val / 16 * 16 + b.val % 16 = b.val
      omega
    rw [hb]

lemma flatten_hexPairs_length (bs : List Byte) :
    (List.flatten (bs.map hexPairChars)).length = 2 * bs.length := by
  induction bs with
  | nil => rfl
  | cons b rest ih =>
    simp only [List.map_cons, List.flatten_cons, List.length_append, ih, hexPairChars]
    simp
    omega

/-- C2: `hex_to_bytes` inverts `bytes_to_hex` for every byte sequence and
every hex text format (spaced, continuous, C array). -/
theorem hex_roundtrip (b : List Byte) (f : HexFormat) :
    hex_to_bytes (bytes_to_hex b f) = .ok b := by
  have hclean : cleanHex (bytes_to_hex b f) = List.flatten (b.map hexPairChars) := by
    cases f
    · exact cleanHex_spaced b
    · exact cleanHex_continuous b
    · exact cleanHex_cArray b
  simp only [hex_to_bytes, hclean]
  rw [if_neg (by rw [flatten_hexPairs_length]; omega)]
  exact parsePairs_flatten b

/-! ### C8: the tmux pass-through envelope round-trip -/

lemma collapse_doubleEsc : ∀ l : List Byte, collapseEsc (doubleEsc l) = l := by
  intro l
  unfold collapseEsc
  induction l with
  | nil => rfl
  | cons b rest ih =>
    simp only [doubleEsc]
    by_cases hb : b = escByte
    · rw [if_pos hb, hb]
      simp [collapseGo, ih]
    · rw [if_neg hb]
      simp only [collapseGo]
      rw [if_neg hb, ih]

lemma stripTmuxEnvelope_wrap (o : List Byte) :
    stripTmuxEnvelope (wrap_for_tmux o) = doubleEsc o := by
  unfold stripTmuxEnvelope wrap_for_tmux
  rw [List.append_assoc]
  rw [show (7 : Nat) = ([escByte, ⟨0x50, by decide⟩, ⟨0x74, by decide⟩, ⟨0x6D, by decide⟩,
      ⟨0x75, by decide⟩, ⟨0x78, by decide⟩, ⟨0x3B, by decide⟩] : List Byte).length from rfl]
  rw [List.drop_left]
  rw [show (doubleEsc o ++ [escByte, ⟨0x5C, by decide⟩]).length - 2 = (doubleEsc o).length from by
    simp]
  rw [List.take_left]

/-- C8: stripping the tmux envelope and collapsing doubled escape bytes
reproduces the unwrapped OSC 52 sequence byte for byte, and that sequence is
`ESC ] 52;c;` followed by the standard base64 encoding of the payload,
terminated by BEL. -/
theorem tmux_wrap_roundtrip (payload : List Byte) :
    collapseEsc (stripTmuxEnvelope (wrap_for_tmux (build_osc52_sequence payload)))
        = build_osc52_sequence payload
      ∧ build_osc52_sequence payload
        = [escByte, ⟨0x5D, by decide⟩, ⟨0x35, by decide⟩, ⟨0x32, by decide⟩,
              ⟨0x3B, by decide⟩, ⟨0x63, by decide⟩, ⟨0x3B, by decide⟩]
            ++ base64Encode payload ++ [⟨0x07, by decide⟩] := by
  refine ⟨?_, rfl⟩
  rw [stripTmuxEnvelope_wrap, collapse_doubleEsc]

/-! ### C4 and C5: renderer highlighting and the end-of-file sentinel -/

lemma data_get_of_getElem? (hv : HexView) (i : Nat) (b : Byte)
    (hb : hv.data[i]? = some b) (h : i < hv.data.length) :
    hv.data.get ⟨i, h⟩ = b := by
  have := List.getElem?_eq_getElem h
  rw [this] at hb
  exact Option.some.inj hb

lemma hex_cell_in_range (hv : HexView) (row_start x1 y j : Nat) (b : Byte) (s e : Nat)
    (h : row_start + j < rowEndOf hv row_start)
    (hb : hv.data[row_start + j]? = some b)
    (hsel : hv.selection = some (s, e)) :
    hex_cell hv row_start x1 y j
      = ⟨x1 + 3 * j, y, hexPairText b,
          if row_start + j = hv.cursor ∧ hv.mode = ViewMode.hex then
            ⟨some Colors.CURSOR, some Colors.CURSOR_BG⟩
          else if s ≤ row_start + j ∧ row_start + j ≤ e then
            ⟨some (byte_color b), some Colors.SELECTION_BG⟩
          else ⟨some (byte_color b), none⟩⟩ := by
  unfold hex_cell
  rw [dif_pos h]
  rw [data_get_of_getElem? hv _ b hb]
  rw [hsel]
  rfl

lemma ascii_cell_in_range (hv : HexView) (row_start xA y j : Nat) (b : Byte) (s e : Nat)
    (h : row_start + j < rowEndOf hv row_start)
    (hb : hv.data[row_start + j]? = some b)
    (hsel : hv.selection = some (s, e)) :
    ascii_cell hv row_start xA y j
      = some ⟨xA + j, y, [byte_to_char b],
          if row_start + j = hv.cursor ∧ hv.mode = ViewMode.ascii then
            ⟨some Colors.CURSOR, some Colors.CURSOR_BG⟩
          else if s ≤ row_start + j ∧ row_start + j ≤ e then
            ⟨some (if (0x21 ≤ b.val ∧ b.val ≤ 0x7E) ∨ b.val = 0x20 then Colors.ASCII_NORMAL
              else Colors.ASCII_CONTROL), some Colors.SELECTION_BG⟩
          else
            ⟨some (if (0x21 ≤ b.val ∧ b.val ≤ 0x7E) ∨ b.val = 0x20 then Colors.ASCII_NORMAL
              else Colors.ASCII_CONTROL), none⟩⟩ := by
  unfold ascii_cell
  rw [dif_pos h]
  rw [data_get_of_getElem? hv _ b hb]
  rw [hsel]
  by_cases hg : (0x21 ≤ b.val ∧ b.val ≤ 0x7E) ∨ b.val = 0x20
  · simp only [if_pos hg]
    rfl
  · simp only [if_neg hg]
    rfl

lemma render_row_eq_some (hv : HexView) (r ax ay : Nat)
    (hcond : rowStart hv r < hv.data.length
      ∨ (rowStart hv r ≤ hv.data.length ∧ hv.cursor = hv.data.length)) :
    render_row hv r ax ay = some
      { addr := ⟨ax, ay, format_addr hv (rowStart hv r), Style.empty.withFg Colors.ADDR⟩
        hexCells := (List.range hv.bytes_per_row).map
          (hex_cell hv (rowStart hv r) (ax + (format_addr hv (rowStart hv r)).length + 2) ay)
        asciiCells := (List.range hv.bytes_per_row).map
          (ascii_cell hv (rowStart hv r)
            (ax + (format_addr hv (rowStart hv r)).length + 2 + 3 * hv.bytes_per_row + 1) ay) } := by
  unfold render_row
  rw [if_neg (by omega)]
  rw [if_neg (by
    intro hand
    rcases hcond with h | h
    · omega
    · exact hand.2 h.2)]

/-- C4: for every rendered byte slot and selection `(s, e)` with `s ≤ e`,
cursor styling wins in the pane matching the active view mode; otherwise an
offset inside the inclusive selection receives the selection background while
keeping its value-class foreground (hex pane) or normal/control foreground
(text pane); otherwise the plain value-class style applies. -/
theorem render_row_highlight_precedence (hv : HexView) (r ax ay i s e : Nat) (b : Byte)
    (hsel : hv.selection = some (s, e)) (hse : s ≤ e)
    (h1 : rowStart hv r ≤ i) (h2 : i < rowEndOf hv (rowStart hv r))
    (hb : hv.data[i]? = some b) :
    ∃ row, render_row hv r ax ay = some row
      ∧ row.hexCells[i - rowStart hv r]?
          = some ⟨ax + (format_addr hv (rowStart hv r)).length + 2 + 3 * (i - rowStart hv r),
              ay, hexPairText b,
              if i = hv.cursor ∧ hv.mode = ViewMode.hex then
                ⟨some Colors.CURSOR, some Colors.CURSOR_BG⟩
              else if s ≤ i ∧ i ≤ e then
                ⟨some (byte_color b), some Colors.SELECTION_BG⟩
              else ⟨some (byte_color b), none⟩⟩
      ∧ row.asciiCells[i - rowStart hv r]?
          = some (some ⟨ax + (format_addr hv (rowStart hv r)).length + 2
                + 3 * hv.bytes_per_row + 1 + (i - rowStart hv r),
              ay, [byte_to_char b],
              if i = hv.cursor ∧ hv.mode = ViewMode.ascii then
                ⟨some Colors.CURSOR, some Colors.CURSOR_BG⟩
              else if s ≤ i ∧ i ≤ e then
                ⟨some (if (0x21 ≤ b.val ∧ b.val ≤ 0x7E) ∨ b.val = 0x20 then Colors.ASCII_NORMAL
                  else Colors.ASCII_CONTROL), some Colors.SELECTION_BG⟩
              else
                ⟨some (if (0x21 ≤ b.val ∧ b.val ≤ 0x7E) ∨ b.val = 0x20 then Colors.ASCII_NORMAL
                  else Colors.ASCII_CONTROL), none⟩⟩) := by
  have hrow_end_le : rowEndOf hv (rowStart hv r) ≤ hv.data.length := Nat.min_le_right _ _
  have hrow_end_le2 : rowEndOf hv (rowStart hv r) ≤ rowStart hv r + hv.bytes_per_row :=
    Nat.min_le_left _ _
  have hj : i - rowStart hv r < hv.bytes_per_row := by omega
  have hieq : rowStart hv r + (i - rowStart hv r) = i := by omega
  refine ⟨_, render_row_eq_some hv r ax ay (Or.inl (by omega)), ?_, ?_⟩
  · rw [List.getElem?_map, List.getElem?_range hj]
    simp only [Option.map_some']
    rw [hex_cell_in_range hv (rowStart hv r) _ ay (i - rowStart hv r) b s e
      (by rw [hieq]; exact h2) (by rw [hieq]; exact hb) hsel]
    rw [hieq]
  · rw [List.getElem?_map, List.getElem?_range hj]
    simp only [Option.map_some']
    rw [ascii_cell_in_range hv (rowStart hv r) _ ay (i - rowStart hv r) b s e
      (by rw [hieq]; exact h2) (by rw [hieq]; exact hb) hsel]
    rw [hieq]

/-- Witness for C4 at a concrete view: selection `(0, 1)`, cursor on the
selected offset 0 in hex mode. -/
theorem render_row_highlight_precedence_witness :
    render_row
        { data := [⟨0x41, by decide⟩, ⟨0x00, by decide⟩], offset := 0, bytes_per_row := 4,
          cursor := 0, selection := some (0, 1), mode := ViewMode.hex,
          encoding := CharEncoding.utf8, addr_radix := 16 } 0 0 1 ≠ none := by
  obtain ⟨row, hrow, -, -⟩ := render_row_highlight_precedence
    { data := [⟨0x41, by decide⟩, ⟨0x00, by decide⟩], offset := 0, bytes_per_row := 4,
      cursor := 0, selection := some (0, 1), mode := ViewMode.hex,
      encoding := CharEncoding.utf8, addr_radix := 16 } 0 0 1 1 0 1 ⟨0x00, by decide⟩
    rfl (by decide) (by decide) (by decide) (by decide)
  rw [hrow]
  simp

lemma hex_cell_eof (hv : HexView) (row_start x1 y j : Nat)
    (hge : ¬ (row_start + j < rowEndOf hv row_start))
    (heof : row_start + j = hv.data.length)
    (hcur : row_start + j = hv.cursor) (hmode : hv.mode = ViewMode.hex) :
    hex_cell hv row_start x1 y j
      = ⟨x1 + 3 * j, y, [0x5F, 0x5F], ⟨some Colors.CURSOR, some Colors.CURSOR_BG⟩⟩ := by
  unfold hex_cell
  rw [dif_neg hge, if_pos ⟨heof, hcur, hmode⟩]
  rfl

lemma ascii_cell_eof (hv : HexView) (row_start xA y j : Nat)
    (hge : ¬ (row_start + j < rowEndOf hv row_start))
    (heof : row_start + j = hv.data.length)
    (hcur : row_start + j = hv.cursor) (hmode : hv.mode = ViewMode.ascii) :
    ascii_cell hv row_start xA y j
      = some ⟨xA + j, y, [0x5F], ⟨some Colors.CURSOR, some Colors.CURSOR_BG⟩⟩ := by
  unfold ascii_cell
  rw [dif_neg hge, if_pos ⟨heof, hcur, hmode⟩]
  rfl

/-- C5: with the cursor at the end-of-file offset `N = data.length`, a row is
rendered exactly when it holds at least one real byte or its address range
contains `N`; and in the row containing `N`, the slot at offset `N` shows a
cursor-styled `__` placeholder in the hex pane in hex mode and a
cursor-styled `_` placeholder in the text pane in text mode. -/
theorem render_row_eof_sentinel (hv : HexView) (r ax ay : Nat)
    (hbpr : 1 ≤ hv.bytes_per_row) (hcur : hv.cursor = hv.data.length) :
    ((render_row hv r ax ay).isSome = true ↔
      rowStart hv r < hv.data.length
        ∨ (rowStart hv r ≤ hv.data.length
            ∧ hv.data.length < rowStart hv r + hv.bytes_per_row))
    ∧ (rowStart hv r ≤ hv.data.length →
        hv.data.length < rowStart hv r + hv.bytes_per_row →
        ∃ row, render_row hv r ax ay = some row
          ∧ (hv.mode = ViewMode.hex →
              row.hexCells[hv.data.length - rowStart hv r]?
                = some ⟨ax + (format_addr hv (rowStart hv r)).length + 2
                      + 3 * (hv.data.length - rowStart hv r), ay, [0x5F, 0x5F],
                    ⟨some Colors.CURSOR, some Colors.CURSOR_BG⟩⟩)
          ∧ (hv.mode = ViewMode.ascii →
              row.asciiCells[hv.data.length - rowStart hv r]?
                = some (some ⟨ax + (format_addr hv (rowStart hv r)).length + 2
                      + 3 * hv.bytes_per_row + 1 + (hv.data.length - rowStart hv r),
                    ay, [0x5F],
                    ⟨some Colors.CURSOR, some Colors.CURSOR_BG⟩⟩))) := by
  constructor
  · unfold render_row
    by_cases hA : hv.data.length < rowStart hv r
    · rw [if_pos hA]
      simp only [Option.isSome_none, Bool.false_eq_true, false_iff]
      omega
    · rw [if_neg hA, if_neg (fun hB => hB.2 hcur)]
      simp only [Option.isSome_some, true_iff]
      omega
  · intro h1 h2
    have hj : hv.data.length - rowStart hv r < hv.bytes_per_row := by omega
    have hieq : rowStart hv r + (hv.data.length - rowStart hv r) = hv.data.length := by omega
    have hge : ¬ (rowStart hv r + (hv.data.length - rowStart hv r)
        < rowEndOf hv (rowStart hv r)) := by
      have : rowEndOf hv (rowStart hv r) ≤ hv.data.length := Nat.min_le_right _ _
      omega
    refine ⟨_, render_row_eq_some hv r ax ay (Or.inr ⟨h1, hcur⟩), ?_, ?_⟩
    · intro hmode
      rw [List.getElem?_map, List.getElem?_range hj]
      simp only [Option.map_some']
      rw [hex_cell_eof hv (rowStart hv r) _ ay (hv.data.length - rowStart hv r)
        hge hieq (by omega) hmode]
    · intro hmode
      rw [List.getElem?_map, List.getElem?_range hj]
      simp only [Option.map_some']
      rw [ascii_cell_eof hv (rowStart hv r) _ ay (hv.data.length - rowStart hv r)
        hge hieq (by omega) hmode]

/-- Witness for C5 at a concrete view: one data byte, cursor at offset 1 (the
end of the file), two byte slots per row. -/
theorem render_row_eof_sentinel_witness :
    render_row
        { data := [⟨0x41, by decide⟩], offset := 0, bytes_per_row := 2,
          cursor := 1, selection := none, mode := ViewMode.hex,
          encoding := CharEncoding.utf8, addr_radix := 16 } 0 0 0 ≠ none := by
  obtain ⟨-, hrow⟩ := render_row_eof_sentinel
    { data := [⟨0x41, by decide⟩], offset := 0, bytes_per_row := 2,
      cursor := 1, selection := none, mode := ViewMode.hex,
      encoding := CharEncoding.utf8, addr_radix := 16 } 0 0 0 (by decide) (by decide)
  obtain ⟨row, hsome, -, -⟩ := hrow (by decide) (by decide)
  rw [hsome]
  simp

end Ehx
